import Mathlib

/-!
Verification of the flight-route network engine: graph construction and
edge deduplication, weighted shortest-path and k-shortest simple-path
search, path metrics, degree centrality, hub-removal what-if analysis and
alternative-hub discovery.

The embedding is a shallow one: the networkx DiGraph state is an
association list of nodes and edges; Python floats are idealised as
rationals; Python `round` is rational round-half-to-even; the geodesic
distance backend (an external library) is a function parameter of graph
construction; the lazy `shortest_simple_paths` generator is modelled
extensionally as the weight-sorted enumeration of all simple paths.
-/

/- Configuration constants from `config.py`. -/
namespace Config

def MIN_TRANSFER_TIME : ℚ := 60

def DEFAULT_TRANSFER_TIME : ℚ := 90

def INTERNATIONAL_TRANSFER_TIME : ℚ := 120

def BASE_COST_PER_KM : ℚ := 1/10

def TRANSFER_COST_MULTIPLIER : ℚ := 3/2

def MAX_STOPS : ℤ := 3

def TOP_K_ROUTES : ℕ := 5

end Config

/-- An input airport record (one row of `airports_df`). -/
structure Airport where
  iata : String
  name : String
  city : String
  country : String
  latitude : ℚ
  longitude : ℚ
  altitude : ℚ
deriving DecidableEq, Repr

/-- An input route record (one row of `routes_df`); only the fields the
graph build reads. -/
structure RouteRec where
  airline : String
  source_airport : String
  destination_airport : String
deriving DecidableEq, Repr

/-- Node attributes stored on a graph node by `_build_graph`. -/
structure NodeData where
  name : String
  city : String
  country : String
  latitude : ℚ
  longitude : ℚ
  altitude : ℚ
deriving DecidableEq, Repr

/-- Edge attributes stored on a graph edge by `_build_graph`. -/
structure EdgeData where
  distance : ℚ
  time_cost : ℚ
  monetary_cost : ℚ
  airline : String
deriving DecidableEq, Repr

/-- The networkx `DiGraph` state: insertion-ordered dictionaries of nodes
and of edges, modelled as association lists with unique keys. -/
structure FlightGraph where
  nodes : List (String × NodeData)
  edges : List ((String × String) × EdgeData)
deriving DecidableEq, Repr

/-- First-match lookup in an association list (Python dict read). -/
def lookupA {κ ν : Type} [DecidableEq κ] (k : κ) : List (κ × ν) → Option ν
  | [] => none
  | (k', v) :: rest => if k' = k then some v else lookupA k rest

/-- In-place value replacement for an existing key (Python dict write to a
present key: position preserved). -/
def assocUpdate {κ ν : Type} [DecidableEq κ] (k : κ) (v : ν) :
    List (κ × ν) → List (κ × ν)
  | [] => []
  | (k', v') :: rest =>
      if k' = k then (k, v) :: rest else (k', v') :: assocUpdate k v rest

/-- Python dict insertion: update in place if present, append if absent. -/
def assocInsert {κ ν : Type} [DecidableEq κ] (k : κ) (v : ν)
    (l : List (κ × ν)) : List (κ × ν) :=
  match lookupA k l with
  | some _ => assocUpdate k v l
  | none => l ++ [(k, v)]

/-- `graph.add_node(iata, ...)` for one airport row. -/
def add_node (g : FlightGraph) (a : Airport) : FlightGraph :=
  { g with nodes := (assocInsert a.iata
      ⟨a.name, a.city, a.country, a.latitude, a.longitude, a.altitude⟩
      g.nodes) }

/-- The geodesic distance backend (`geopy.distance.geodesic(...).kilometers`),
an external collaborator: a function of the two coordinate pairs. -/
def DistFn : Type := ℚ → ℚ → ℚ → ℚ → ℚ

/-- Processing of one route row of `_build_graph` (graph.py lines 55-96):
skip when either endpoint is not a known IATA code, compute the edge
attributes from the first matching airport rows, then either insert the
edge or replace it when the new monetary cost is strictly lower. -/
def add_route (dist : DistFn) (airports : List Airport) (g : FlightGraph)
    (route : RouteRec) : FlightGraph :=
  let src := route.source_airport
  let dst := route.destination_airport
  match airports.find? (fun a => a.iata = src),
        airports.find? (fun a => a.iata = dst) with
  | some src_airport, some dst_airport =>
      let distance := dist src_airport.latitude src_airport.longitude
        dst_airport.latitude dst_airport.longitude
      let time_cost := distance / 800
      let monetary_cost := distance * Config.BASE_COST_PER_KM
      let ed : EdgeData := ⟨distance, time_cost, monetary_cost, route.airline⟩
      match lookupA (src, dst) g.edges with
      | some existing =>
          if monetary_cost < existing.monetary_cost then
            { g with edges := assocUpdate (src, dst) ed g.edges }
          else g
      | none => { g with edges := g.edges ++ [((src, dst), ed)] }
  | _, _ => g

/-- `FlightGraph._build_graph`: nodes from the airport rows in order, then
edges from the route rows in order. -/
def build_graph (dist : DistFn) (airports : List Airport)
    (routes : List RouteRec) : FlightGraph :=
  routes.foldl (add_route dist airports) (airports.foldl add_node ⟨[], []⟩)

/-- Node membership (`code in self.graph`). -/
def hasNode (g : FlightGraph) (code : String) : Bool :=
  (lookupA code g.nodes).isSome

/-- Edge lookup (`self.graph[src][dst]`, as a fallible read). -/
def getEdge (g : FlightGraph) (src dst : String) : Option EdgeData :=
  lookupA (src, dst) g.edges

/-- The node keys in insertion order (`self.graph.nodes()`). -/
def nodeKeys (g : FlightGraph) : List String := g.nodes.map (·.1)

/-- The edge keys in insertion order. -/
def edgeKeys (g : FlightGraph) : List (String × String) := g.edges.map (·.1)

/-- In-degree of a node in the directed graph. -/
def inDegree (g : FlightGraph) (code : String) : ℕ :=
  (g.edges.filter (fun e => e.1.2 = code)).length

/-- Out-degree of a node in the directed graph. -/
def outDegree (g : FlightGraph) (code : String) : ℕ :=
  (g.edges.filter (fun e => e.1.1 = code)).length

/-- `FlightGraph.get_transfer_time` (graph.py lines 100-113): transfer time
in hours; the airport-code argument is never read. -/
def get_transfer_time (airport_code : String)
    (is_international : Bool) : ℚ :=
  if is_international then Config.INTERNATIONAL_TRANSFER_TIME / 60
  else Config.DEFAULT_TRANSFER_TIME / 60

/-- Round-half-to-even to an integer, the idealisation of Python `round`
on rationals. -/
def roundHalfEven (x : ℚ) : ℤ :=
  let f := ⌊x⌋
  let frac := x - f
  if frac < 1/2 then f
  else if 1/2 < frac then f + 1
  else if 2 ∣ f then f else f + 1

/-- Python `round(x, ndigits)` on rationals. -/
def pyRound (ndigits : ℕ) (x : ℚ) : ℚ :=
  (roundHalfEven (x * 10 ^ ndigits) : ℚ) / 10 ^ ndigits

/-- The weight selector: `weight_map.get(cost_type, 'time_cost')` applied
as an edge-attribute reader (graph.py lines 137-143 and 182-187). -/
def weightFn (cost_type : String) : EdgeData → ℚ :=
  if cost_type = "time" then (fun e => e.time_cost)
  else if cost_type = "distance" then (fun e => e.distance)
  else if cost_type = "cost" then (fun e => e.monetary_cost)
  else (fun e => e.time_cost)

/-- Total weight of a node sequence: absent edges contribute 0 (they never
occur on enumerated paths). -/
def pathWeight (g : FlightGraph) (w : EdgeData → ℚ) : List String → ℚ
  | a :: b :: rest =>
      (match getEdge g a b with | some e => w e | none => 0) +
        pathWeight g w (b :: rest)
  | _ => 0

/-- Direct successors of a node, in edge insertion order. -/
def successorsOf (g : FlightGraph) (a : String) : List String :=
  g.edges.filterMap (fun e => if e.1.1 = a then some e.1.2 else none)

/-- Depth-first enumeration of the simple paths from `cur` to `t` that
avoid `vis`; `fuel` bounds the recursion depth. -/
def simplePathsAux (g : FlightGraph) (t : String) :
    ℕ → String → List String → List (List String)
  | 0, _, _ => []
  | fuel + 1, cur, vis =>
      if cur = t then [[cur]]
      else (successorsOf g cur).flatMap (fun n =>
        if n ∈ vis then []
        else (simplePathsAux g t fuel n (n :: vis)).map (fun p => cur :: p))

/-- All simple paths from `s` to `t` in the graph. -/
def simplePaths (g : FlightGraph) (s t : String) : List (List String) :=
  simplePathsAux g t g.nodes.length s [s]

/-- The extensional model of the `nx.shortest_simple_paths` generator run
to exhaustion: every simple path from `s` to `t`, stably sorted by total
weight. -/
def sortedSimplePaths (g : FlightGraph) (s t : String)
    (w : EdgeData → ℚ) : List (List String) :=
  List.insertionSort (fun p q => pathWeight g w p ≤ pathWeight g w q)
    (simplePaths g s t)

/-- A per-leg entry of a path result (with airline). -/
structure Segment where
  leg_from : String
  leg_to : String
  distance : ℚ
  time : ℚ
  cost : ℚ
  airline : String
deriving DecidableEq, Repr

/-- The result dictionary of `_calculate_path_metrics`. -/
structure PathMetrics where
  path : List String
  segments : List Segment
  stops : ℤ
  total_distance : ℚ
  total_flight_time : ℚ
  total_transfer_time : ℚ
  total_time : ℚ
  total_cost : ℚ
deriving DecidableEq, Repr

/-- The consecutive edges of a node sequence; `none` when a consecutive
pair has no edge (the Python code would raise a `KeyError` there). -/
def pathEdges (g : FlightGraph) : List String →
    Option (List ((String × String) × EdgeData))
  | a :: b :: rest => do
      let e ← getEdge g a b
      let es ← pathEdges g (b :: rest)
      pure (((a, b), e) :: es)
  | _ => some []

/-- `FlightGraph._calculate_path_metrics` (graph.py lines 211-257):
accumulate per-leg distance/time/cost at full precision, add the default
transfer time per intermediate stop, round display fields to 2 digits. -/
def _calculate_path_metrics (g : FlightGraph) (path : List String) :
    Option PathMetrics :=
  (pathEdges g path).map fun legs =>
    let total_distance := (legs.map (fun l => l.2.distance)).sum
    let total_time := (legs.map (fun l => l.2.time_cost)).sum
    let total_cost := (legs.map (fun l => l.2.monetary_cost)).sum
    let segments := legs.map (fun l =>
      (⟨l.1.1, l.1.2, pyRound 2 l.2.distance, pyRound 2 l.2.time_cost,
        pyRound 2 l.2.monetary_cost, l.2.airline⟩ : Segment))
    let transfer_time := (path.drop 1).dropLast.foldl
      (fun acc stop => acc + get_transfer_time stop false) 0
    { path := path
      segments := segments
      stops := (path.length : ℤ) - 2
      total_distance := pyRound 2 total_distance
      total_flight_time := pyRound 2 total_time
      total_transfer_time := pyRound 2 transfer_time
      total_time := pyRound 2 (total_time + transfer_time)
      total_cost := pyRound 2 total_cost }

/-- `FlightGraph.find_shortest_path` (graph.py lines 115-158): absent when
an endpoint is unknown or no path exists; otherwise the unconstrained
weighted shortest path, rejected afterwards when its stop count exceeds
`max_stops`. -/
def find_shortest_path (g : FlightGraph) (source target : String)
    (cost_type : String) (max_stops : Option ℕ) : Option PathMetrics :=
  if hasNode g source && hasNode g target then
    match (sortedSimplePaths g source target (weightFn cost_type)).head? with
    | none => none
    | some path =>
        match max_stops with
        | some m =>
            if (path.length : ℤ) - 2 > (m : ℤ) then none
            else _calculate_path_metrics g path
        | none => _calculate_path_metrics g path
  else none

/-- `FlightGraph.find_k_shortest_paths` (graph.py lines 160-209): walk the
sorted simple-path enumeration, skip paths over the configured stop
ceiling without counting them, stop after `k` collected results. -/
def find_k_shortest_paths (g : FlightGraph) (source target : String)
    (k : ℕ) (cost_type : String) : List PathMetrics :=
  if hasNode g source && hasNode g target then
    ((((sortedSimplePaths g source target (weightFn cost_type)).filter
        (fun p => !((p.length : ℤ) - 2 > Config.MAX_STOPS))).filterMap
      (_calculate_path_metrics g)).take k)
  else []

/-- `nx.degree_centrality` as computed by networkx on the directed graph:
total degree times `1/(n-1)`, and `1` for every node of a graph with at
most one node. -/
def degree_centrality (g : FlightGraph) (code : String) : ℚ :=
  if g.nodes.length ≤ 1 then 1
  else ((inDegree g code : ℚ) + (outDegree g code : ℚ)) /
    ((g.nodes.length : ℚ) - 1)

/-- The `degree_centrality` value as reported by
`HubAnalyzer.calculate_centrality_metrics` (hub_analysis.py line 67):
rounded to 6 fractional digits. -/
def reported_degree_centrality (g : FlightGraph) (code : String) : ℚ :=
  pyRound 6 (degree_centrality g code)

/-- Modelled from the spec: `FlightGraph._get_country_by_iata`, the
Country Index mapping an airport code to its country; the method is
called from `HubAnalyzer.find_alternative_hubs` but its definition is not
among the provided sources. Per the spec it is a read-only index from
IATA code to country built alongside the Network Model. -/
def _get_country_by_iata (g : FlightGraph) (iata : String) : Option String :=
  (lookupA iata g.nodes).map (·.country)

/-- `nx.DiGraph.remove_node`: drop the node and its incident edges. -/
def remove_node (g : FlightGraph) (code : String) : FlightGraph :=
  { nodes := g.nodes.filter (fun n => n.1 ≠ code)
    edges := g.edges.filter (fun e => e.1.1 ≠ code && e.1.2 ≠ code) }

/-- The result dictionary of `HubAnalyzer.analyze_hub_removal`; the delta
fields are present exactly when both paths exist. -/
structure RemovalAnalysis where
  removed_hubs : List String
  original_path : Option PathMetrics
  alternative_path : Option PathMetrics
  path_exists : Bool
  time_increase : Option ℚ
  cost_increase : Option ℚ
  distance_increase : Option ℚ
  stops_increase : Option ℤ
deriving DecidableEq, Repr

/-- `HubAnalyzer.analyze_hub_removal` (hub_analysis.py lines 109-177):
original shortest path by time, then the shortest path by time on a copy
with the listed hubs (except source/target) removed; `none` models the
uncaught `NodeNotFound` raised when source or target is missing from the
working copy. -/
def analyze_hub_removal (g : FlightGraph) (source target : String)
    (hubs_to_remove : List String) : Option RemovalAnalysis :=
  let original_path := find_shortest_path g source target "time" none
  let temp_graph := hubs_to_remove.foldl
    (fun tg hub =>
      if hasNode tg hub && !(hub = source) && !(hub = target) then
        remove_node tg hub
      else tg) g
  if hasNode temp_graph source && hasNode temp_graph target then
    let alternative_path :=
      (sortedSimplePaths temp_graph source target
          (fun e => e.time_cost)).head?.bind
        (_calculate_path_metrics temp_graph)
    some
      { removed_hubs := hubs_to_remove
        original_path := original_path
        alternative_path := alternative_path
        path_exists := alternative_path.isSome
        time_increase :=
          match original_path, alternative_path with
          | some o, some a => some (pyRound 2 (a.total_time - o.total_time))
          | _, _ => none
        cost_increase :=
          match original_path, alternative_path with
          | some o, some a => some (pyRound 2 (a.total_cost - o.total_cost))
          | _, _ => none
        distance_increase :=
          match original_path, alternative_path with
          | some o, some a =>
              some (pyRound 2 (a.total_distance - o.total_distance))
          | _, _ => none
        stops_increase :=
          match original_path, alternative_path with
          | some o, some a => some (a.stops - o.stops)
          | _, _ => none }
  else none

/-- A per-leg entry of a hub option (`find_alternative_hubs` emits
segments without an airline field). -/
structure HubSegment where
  leg_from : String
  leg_to : String
  distance : ℚ
  time : ℚ
  cost : ℚ
deriving DecidableEq, Repr

/-- One alternative-hub record of `HubAnalyzer.find_alternative_hubs`. -/
structure HubOption where
  hub : String
  hub_name : String
  hub_city : String
  hub_country : String
  is_international_transfer : Bool
  total_time : ℚ
  total_distance : ℚ
  total_cost : ℚ
  transfer_time : ℚ
  segments : List HubSegment
deriving DecidableEq, Repr

/-- Python truthiness of an optional string: `None` and `""` are falsy. -/
def truthyStr : Option String → Bool
  | none => false
  | some s => !(s = "")

/-- The international-transfer classification of
`HubAnalyzer.find_alternative_hubs` (hub_analysis.py lines 215-218):
only when all three country values are truthy, international exactly when
the source country differs from the hub country or the hub country from
the target country. -/
def hubIsInternational (cs ch ct : Option String) : Bool :=
  truthyStr cs && truthyStr ch && truthyStr ct &&
    (!(cs = ch) || !(ch = ct))

/-- The per-candidate body of the `HubAnalyzer.find_alternative_hubs`
loop (hub_analysis.py lines 204-265): skip source, target and the primary
hub, require direct edges source→hub and hub→target, then build the
annotated hub option; the source and target countries are computed once
by the caller and passed in. -/
def althub_entry (g : FlightGraph) (source target : String)
    (country_source country_target : Option String)
    (primary_hub potential_hub : String) : Option HubOption :=
  if potential_hub = source ∨ potential_hub = target ∨
      potential_hub = primary_hub then none
  else
    match getEdge g source potential_hub, getEdge g potential_hub target with
    | some src_to_hub, some hub_to_dst =>
        let country_hub := _get_country_by_iata g potential_hub
        let is_international :=
          hubIsInternational country_source country_hub country_target
        let transfer_time_hub :=
          get_transfer_time potential_hub is_international
        let total_time := src_to_hub.time_cost + hub_to_dst.time_cost +
          transfer_time_hub
        let total_distance := src_to_hub.distance + hub_to_dst.distance
        let total_cost := src_to_hub.monetary_cost + hub_to_dst.monetary_cost
        let hub_info := (lookupA potential_hub g.nodes).getD
          ⟨"", "", "", 0, 0, 0⟩
        some
          { hub := potential_hub
            hub_name := hub_info.name
            hub_city := hub_info.city
            hub_country := hub_info.country
            is_international_transfer := is_international
            total_time := pyRound 2 total_time
            total_distance := pyRound 2 total_distance
            total_cost := pyRound 2 total_cost
            transfer_time := pyRound 2 transfer_time_hub
            segments :=
              [⟨source, potential_hub, pyRound 2 src_to_hub.distance,
                  pyRound 2 src_to_hub.time_cost,
                  pyRound 2 src_to_hub.monetary_cost⟩,
                ⟨potential_hub, target, pyRound 2 hub_to_dst.distance,
                  pyRound 2 hub_to_dst.time_cost,
                  pyRound 2 hub_to_dst.monetary_cost⟩] }
    | _, _ => none

/-- `HubAnalyzer.find_alternative_hubs` (hub_analysis.py lines 179-269):
every node other than source, target and the primary hub with direct
edges from the source and to the target, annotated with totals including
the hub transfer time, sorted ascending by (rounded) total time, first
`top_k` kept. -/
def find_alternative_hubs (g : FlightGraph) (source target : String)
    (primary_hub : String) (top_k : ℕ) : List HubOption :=
  let country_source := _get_country_by_iata g source
  let country_target := _get_country_by_iata g target
  let alternatives := (nodeKeys g).filterMap
    (althub_entry g source target country_source country_target primary_hub)
  (List.insertionSort (fun x y => x.total_time ≤ y.total_time)
    alternatives).take top_k

/-- Well-formedness of a graph state, maintained by networkx by
construction: node and edge keys are unique and every edge endpoint is a
node. -/
def WF (g : FlightGraph) : Prop :=
  (nodeKeys g).Nodup ∧ (edgeKeys g).Nodup ∧
    ∀ e ∈ g.edges, e.1.1 ∈ nodeKeys g ∧ e.1.2 ∈ nodeKeys g

instance (g : FlightGraph) : Decidable (WF g) :=
  inferInstanceAs (Decidable (((nodeKeys g).Nodup) ∧ ((edgeKeys g).Nodup) ∧
    ∀ e ∈ g.edges, e.1.1 ∈ nodeKeys g ∧ e.1.2 ∈ nodeKeys g))

/-- A simple path from `s` to `t` in the graph: nonempty, starts at `s`,
ends at `t`, every consecutive pair an edge, no repeated node. -/
def IsSimplePath (g : FlightGraph) (s t : String) (p : List String) : Prop :=
  p ≠ [] ∧ p.head? = some s ∧ p.getLast? = some t ∧
    p.Chain' (fun a b => (getEdge g a b).isSome) ∧ p.Nodup

/-- Executable edge-chain check, used to decide `IsSimplePath`. -/
def chainB (g : FlightGraph) : List String → Bool
  | a :: b :: rest => (getEdge g a b).isSome && chainB g (b :: rest)
  | _ => true

theorem chainB_iff (g : FlightGraph) :
    ∀ p : List String,
      chainB g p = true ↔ p.Chain' (fun a b => (getEdge g a b).isSome) := by
  intro p
  induction p with
  | nil => simp [chainB]
  | cons a q ih =>
      cases q with
      | nil => simp [chainB]
      | cons b rest =>
          show ((getEdge g a b).isSome && chainB g (b :: rest)) = true ↔ _
          rw [Bool.and_eq_true, List.chain'_cons, ih]

instance (g : FlightGraph) (s t : String) (p : List String) :
    Decidable (IsSimplePath g s t p) :=
  decidable_of_iff (p ≠ [] ∧ p.head? = some s ∧
      p.getLast? = some t ∧ chainB g p = true ∧ p.Nodup)
    (by rw [chainB_iff]; exact Iff.rfl)
/- Concrete inputs used to witness the build-dedup step. -/
def airportsC1 : List Airport :=
  [⟨"AAA", "", "", "X", 0, 0, 0⟩, ⟨"BBB", "", "", "Y", 1, 0, 0⟩]

def gC1 : FlightGraph :=
  ⟨[("AAA", ⟨"", "", "X", 0, 0, 0⟩), ("BBB", ⟨"", "", "Y", 1, 0, 0⟩)],
    [(("AAA", "BBB"), ⟨200, 1/4, 20, "U0"⟩)]⟩

def distC1 : DistFn := fun _ _ _ _ => 100

def rC1 : RouteRec := ⟨"U1", "AAA", "BBB"⟩

def gC7 : FlightGraph := ⟨[], []⟩

def gC10 : FlightGraph := ⟨[("AAA", ⟨"", "", "X", 0, 0, 0⟩)], []⟩

/- A concrete network where the time-shortest path has one stop but a
direct edge exists: AAA→BBB→CCC is cheaper than AAA→CCC. -/
def distC2 : DistFn := fun la _ lb _ => (la - lb) ^ 2 * 100

def airportsC2 : List Airport :=
  [⟨"AAA", "", "", "X", 0, 0, 0⟩, ⟨"BBB", "", "", "Y", 1, 0, 0⟩,
    ⟨"CCC", "", "", "X", 2, 0, 0⟩]

def routesC2 : List RouteRec :=
  [⟨"U1", "AAA", "BBB"⟩, ⟨"U2", "BBB", "CCC"⟩, ⟨"U3", "AAA", "CCC"⟩]

def gC2 : FlightGraph := build_graph distC2 airportsC2 routesC2
def gC6 : FlightGraph :=
  ⟨[("AAA", ⟨"", "", "X", 0, 0, 0⟩), ("BBB", ⟨"", "", "Y", 0, 0, 0⟩),
      ("CCC", ⟨"", "", "X", 0, 0, 0⟩)],
    [(("AAA", "BBB"), ⟨100, 1/8, 10, "U1"⟩),
      (("BBB", "CCC"), ⟨100, 1/8, 10, "U2"⟩)]⟩

def gC4 : FlightGraph :=
  build_graph (fun _ _ _ _ => 800)
    [⟨"AAA", "", "", "X", 0, 0, 0⟩, ⟨"BBB", "", "", "Y", 1, 0, 0⟩]
    [⟨"U1", "AAA", "BBB"⟩, ⟨"U2", "BBB", "AAA"⟩]

def gC4b : FlightGraph := gC4

/-- A viable one-stop hub: distinct from source, target and the primary
hub, with direct edges source→hub and hub→target. -/
def ViableHub (g : FlightGraph) (source target primary_hub h : String) :
    Prop :=
  ¬(h = source ∨ h = target ∨ h = primary_hub) ∧
    (getEdge g source h).isSome ∧ (getEdge g h target).isSome

instance (g : FlightGraph) (source target primary_hub h : String) :
    Decidable (ViableHub g source target primary_hub h) :=
  inferInstanceAs (Decidable (¬(h = source ∨ h = target ∨ h = primary_hub) ∧
    (getEdge g source h).isSome ∧ (getEdge g h target).isSome))

/-- The hub-option record built for a viable hub, as a function of the
graph and the endpoints (junk on non-viable hubs). -/
def mkHubOption (g : FlightGraph) (source target potential_hub : String) :
    HubOption :=
  match getEdge g source potential_hub, getEdge g potential_hub target with
  | some src_to_hub, some hub_to_dst =>
      let country_hub := _get_country_by_iata g potential_hub
      let is_international :=
        hubIsInternational (_get_country_by_iata g source) country_hub
          (_get_country_by_iata g target)
      let transfer_time_hub :=
        get_transfer_time potential_hub is_international
      let total_time := src_to_hub.time_cost + hub_to_dst.time_cost +
        transfer_time_hub
      let total_distance := src_to_hub.distance + hub_to_dst.distance
      let total_cost := src_to_hub.monetary_cost + hub_to_dst.monetary_cost
      let hub_info := (lookupA potential_hub g.nodes).getD
        ⟨"", "", "", 0, 0, 0⟩
      { hub := potential_hub
        hub_name := hub_info.name
        hub_city := hub_info.city
        hub_country := hub_info.country
        is_international_transfer := is_international
        total_time := pyRound 2 total_time
        total_distance := pyRound 2 total_distance
        total_cost := pyRound 2 total_cost
        transfer_time := pyRound 2 transfer_time_hub
        segments :=
          [⟨source, potential_hub, pyRound 2 src_to_hub.distance,
              pyRound 2 src_to_hub.time_cost,
              pyRound 2 src_to_hub.monetary_cost⟩,
            ⟨potential_hub, target, pyRound 2 hub_to_dst.distance,
              pyRound 2 hub_to_dst.time_cost,
              pyRound 2 hub_to_dst.monetary_cost⟩] }
  | _, _ => ⟨potential_hub, "", "", "", false, 0, 0, 0, 0, []⟩

/- A built network whose source airport has an empty country string: the
truthiness guard then classifies the BBB transfer as domestic although
the source country differs from the hub country. -/
def gC3 : FlightGraph :=
  build_graph (fun _ _ _ _ => 800)
    [⟨"AAA", "", "", "", 0, 0, 0⟩, ⟨"BBB", "", "", "XX", 1, 0, 0⟩,
      ⟨"CCC", "", "", "XX", 2, 0, 0⟩, ⟨"DDD", "", "", "XX", 3, 0, 0⟩]
    [⟨"U1", "AAA", "BBB"⟩, ⟨"U2", "BBB", "CCC"⟩]

section AssocLemmas

variable {κ ν : Type} [DecidableEq κ]

theorem lookupA_eq_none_iff {k : κ} {l : List (κ × ν)} :
    lookupA k l = none ↔ k ∉ l.map (·.1) := by
  induction l with
  | nil => simp [lookupA]
  | cons hd tl ih =>
      obtain ⟨k', v⟩ := hd
      by_cases h : k' = k
      · subst h; simp [lookupA]
      · simp [lookupA, h, ih, Ne.symm h]

theorem lookupA_isSome_iff {k : κ} {l : List (κ × ν)} :
    (lookupA k l).isSome ↔ k ∈ l.map (·.1) := by
  rw [Option.isSome_iff_ne_none]
  rw [not_iff_comm]
  rw [Iff.comm]
  exact lookupA_eq_none_iff

theorem map_fst_assocUpdate (k : κ) (v : ν) (l : List (κ × ν)) :
    (assocUpdate k v l).map (·.1) = l.map (·.1) := by
  induction l with
  | nil => simp [assocUpdate]
  | cons hd tl ih =>
      obtain ⟨k', v'⟩ := hd
      by_cases h : k' = k
      · subst h; simp [assocUpdate]
      · simp [assocUpdate, h, ih]

theorem lookupA_assocUpdate_self {k : κ} (v : ν) {l : List (κ × ν)}
    (h : (lookupA k l).isSome) :
    lookupA k (assocUpdate k v l) = some v := by
  induction l with
  | nil => simp [lookupA] at h
  | cons hd tl ih =>
      obtain ⟨k', v'⟩ := hd
      by_cases hk : k' = k
      · subst hk; simp [assocUpdate, lookupA]
      · simp [assocUpdate, lookupA, hk] at h ⊢
        exact ih h

theorem lookupA_assocUpdate_ne {k k' : κ} (v : ν) (l : List (κ × ν))
    (h : k' ≠ k) :
    lookupA k' (assocUpdate k v l) = lookupA k' l := by
  induction l with
  | nil => simp [assocUpdate]
  | cons hd tl ih =>
      obtain ⟨ka, va⟩ := hd
      by_cases hk : ka = k
      · subst hk
        simp [assocUpdate, lookupA, Ne.symm h]
      · simp only [assocUpdate, if_neg hk, lookupA]
        by_cases hk2 : ka = k'
        · simp [hk2]
        · simp [hk2, ih]

theorem lookupA_append (k : κ) (l₁ l₂ : List (κ × ν)) :
    lookupA k (l₁ ++ l₂) =
      match lookupA k l₁ with
      | some v => some v
      | none => lookupA k l₂ := by
  induction l₁ with
  | nil => simp [lookupA]
  | cons hd tl ih =>
      obtain ⟨k', v'⟩ := hd
      by_cases h : k' = k
      · simp [lookupA, h]
      · simp [lookupA, h, ih]

end AssocLemmas
theorem add_route_nodes (dist : DistFn) (airports : List Airport)
    (g : FlightGraph) (r : RouteRec) :
    (add_route dist airports g r).nodes = g.nodes := by
  unfold add_route
  dsimp only
  split
  · split
    · split <;> rfl
    · rfl
  · rfl

theorem build_graph_nodes (dist : DistFn) (airports : List Airport)
    (routes : List RouteRec) :
    (build_graph dist airports routes).nodes =
      (airports.foldl add_node ⟨[], []⟩).nodes := by
  unfold build_graph
  generalize airports.foldl add_node ⟨[], []⟩ = g0
  induction routes generalizing g0 with
  | nil => rfl
  | cons r rs ih => rw [List.foldl_cons, ih, add_route_nodes]

theorem nodeKeys_assocInsert_nodup {k : String} {v : NodeData}
    {l : List (String × NodeData)} (h : (l.map (·.1)).Nodup) :
    ((assocInsert k v l).map (·.1)).Nodup := by
  unfold assocInsert
  cases hl : lookupA k l with
  | some w => rw [map_fst_assocUpdate]; exact h
  | none =>
      rw [List.map_append]
      simp only [List.map_cons, List.map_nil]
      rw [List.nodup_append]
      refine ⟨h, List.nodup_singleton k, ?_⟩
      intro x hx
      simp only [List.mem_singleton]
      intro hxk
      subst hxk
      exact (lookupA_eq_none_iff.mp hl) hx

theorem build_nodes_keys_nodup (airports : List Airport) :
    ((airports.foldl add_node ⟨[], []⟩).nodes.map (·.1)).Nodup := by
  suffices h : ∀ (g : FlightGraph), (g.nodes.map (·.1)).Nodup →
      ((airports.foldl add_node g).nodes.map (·.1)).Nodup by
    exact h ⟨[], []⟩ (by simp)
  induction airports with
  | nil => intro g hg; exact hg
  | cons a as ih =>
      intro g hg
      rw [List.foldl_cons]
      exact ih _ (nodeKeys_assocInsert_nodup hg)

theorem mem_build_nodes_keys {airports : List Airport} {x : String} :
    x ∈ (airports.foldl add_node ⟨[], []⟩).nodes.map (·.1) ↔
      x ∈ airports.map (·.iata) := by
  suffices h : ∀ (g : FlightGraph),
      (x ∈ (airports.foldl add_node g).nodes.map (·.1) ↔
        x ∈ g.nodes.map (·.1) ∨ x ∈ airports.map (·.iata)) by
    rw [h ⟨[], []⟩]; simp
  induction airports with
  | nil => intro g; simp
  | cons a as ih =>
      intro g
      rw [List.foldl_cons, ih]
      unfold add_node assocInsert
      cases hl : lookupA a.iata g.nodes with
      | some w =>
          rw [map_fst_assocUpdate]
          have hm : a.iata ∈ g.nodes.map (·.1) := by
            rw [← lookupA_isSome_iff]
            simp [hl]
          simp only [List.map_cons, List.mem_cons]
          constructor
          · rintro (h | h)
            · exact Or.inl h
            · exact Or.inr (Or.inr h)
          · rintro (h | h | h)
            · exact Or.inl h
            · subst h; exact Or.inl hm
            · exact Or.inr h
      | none =>
          simp only [List.map_append, List.map_cons, List.map_nil,
            List.mem_append, List.mem_singleton, List.mem_cons]
          tauto
theorem add_route_edge_keys_nodup (dist : DistFn) (airports : List Airport)
    (g : FlightGraph) (r : RouteRec)
    (h : ((g.edges.map (·.1)).Nodup)) :
    (((add_route dist airports g r).edges.map (·.1)).Nodup) := by
  unfold add_route
  dsimp only
  split
  · split
    · split
      · simpa [map_fst_assocUpdate] using h
      · exact h
    · next hnone =>
        simp only [List.map_append, List.map_cons, List.map_nil]
        rw [List.nodup_append]
        refine ⟨h, List.nodup_singleton _, ?_⟩
        intro x hx
        simp only [List.mem_singleton]
        intro hxk
        subst hxk
        exact (lookupA_eq_none_iff.mp hnone) hx
  · exact h

theorem add_route_edge_keys_mem (dist : DistFn) (airports : List Airport)
    (g : FlightGraph) (r : RouteRec)
    (h : ∀ k ∈ g.edges.map (·.1),
      k.1 ∈ airports.map (·.iata) ∧ k.2 ∈ airports.map (·.iata)) :
    ∀ k ∈ (add_route dist airports g r).edges.map (·.1),
      k.1 ∈ airports.map (·.iata) ∧ k.2 ∈ airports.map (·.iata) := by
  unfold add_route
  dsimp only
  split
  · next sa da hsa hda =>
      have hsa2 : r.source_airport ∈ airports.map (·.iata) := by
        have hmem := List.mem_of_find?_eq_some hsa
        have hp := List.find?_some hsa
        simp only [decide_eq_true_eq] at hp
        exact hp ▸ List.mem_map_of_mem (·.iata) hmem
      have hda2 : r.destination_airport ∈ airports.map (·.iata) := by
        have hmem := List.mem_of_find?_eq_some hda
        have hp := List.find?_some hda
        simp only [decide_eq_true_eq] at hp
        exact hp ▸ List.mem_map_of_mem (·.iata) hmem
      split
      · split
        · rw [map_fst_assocUpdate]; exact h
        · exact h
      · intro k hk
        simp only [List.map_append, List.map_cons, List.map_nil,
          List.mem_append, List.mem_singleton] at hk
        rcases hk with hk | hk
        · exact h k hk
        · subst hk; exact ⟨hsa2, hda2⟩
  · exact h

theorem foldl_add_node_edges (airports : List Airport) :
    ∀ (g : FlightGraph), g.edges = [] →
      (airports.foldl add_node g).edges = [] := by
  induction airports with
  | nil => intro g hg; exact hg
  | cons a as ih =>
      intro g hg
      rw [List.foldl_cons]
      exact ih _ (by simp [add_node, hg])

theorem build_graph_edge_keys_nodup (dist : DistFn) (airports : List Airport)
    (routes : List RouteRec) :
    (((build_graph dist airports routes).edges.map (·.1)).Nodup) := by
  unfold build_graph
  generalize hg0 : (airports.foldl add_node (⟨[], []⟩ : FlightGraph)) = g0
  have h0 : ((g0.edges.map (·.1)).Nodup) := by
    rw [← hg0, foldl_add_node_edges airports ⟨[], []⟩ rfl]
    simp
  clear hg0
  induction routes generalizing g0 with
  | nil => exact h0
  | cons r rs ih =>
      rw [List.foldl_cons]
      exact ih _ (add_route_edge_keys_nodup dist airports g0 r h0)

theorem build_graph_edge_keys_mem (dist : DistFn) (airports : List Airport)
    (routes : List RouteRec) :
    ∀ k ∈ (build_graph dist airports routes).edges.map (·.1),
      k.1 ∈ airports.map (·.iata) ∧ k.2 ∈ airports.map (·.iata) := by
  unfold build_graph
  generalize hg0 : (airports.foldl add_node (⟨[], []⟩ : FlightGraph)) = g0
  have h0 : ∀ k ∈ g0.edges.map (·.1),
      k.1 ∈ airports.map (·.iata) ∧ k.2 ∈ airports.map (·.iata) := by
    rw [← hg0, foldl_add_node_edges airports ⟨[], []⟩ rfl]
    simp
  clear hg0
  induction routes generalizing g0 with
  | nil => exact h0
  | cons r rs ih =>
      rw [List.foldl_cons]
      exact ih _ (add_route_edge_keys_mem dist airports g0 r h0)

theorem mem_nodeKeys_build {dist : DistFn} {airports : List Airport}
    {routes : List RouteRec} {x : String} :
    x ∈ nodeKeys (build_graph dist airports routes) ↔
      x ∈ airports.map (·.iata) := by
  rw [nodeKeys, build_graph_nodes]
  exact mem_build_nodes_keys

theorem build_graph_WF (dist : DistFn) (airports : List Airport)
    (routes : List RouteRec) : WF (build_graph dist airports routes) := by
  refine ⟨?_, build_graph_edge_keys_nodup dist airports routes, ?_⟩
  · rw [nodeKeys, build_graph_nodes]
    exact build_nodes_keys_nodup airports
  · intro e he
    have hkey := build_graph_edge_keys_mem dist airports routes e.1
      (List.mem_map_of_mem (·.1) he)
    exact ⟨mem_nodeKeys_build.mpr hkey.1, mem_nodeKeys_build.mpr hkey.2⟩
theorem successorsOf_eq (g : FlightGraph) (a : String) :
    successorsOf g a =
      ((g.edges.map (·.1)).filter (fun k => k.1 = a)).map (·.2) := by
  unfold successorsOf
  induction g.edges with
  | nil => rfl
  | cons e rest ih =>
      by_cases h : e.1.1 = a
      · simp [List.filterMap_cons, List.filter_cons, h, ih]
      · simp [List.filterMap_cons, List.filter_cons, h, ih]

theorem mem_successorsOf {g : FlightGraph} {a b : String} :
    b ∈ successorsOf g a ↔ (a, b) ∈ g.edges.map (·.1) := by
  rw [successorsOf_eq]
  simp only [List.mem_map, List.mem_filter, decide_eq_true_eq]
  constructor
  · rintro ⟨k, ⟨hk, hk1⟩, hk2⟩
    have : k = (a, b) := Prod.ext hk1 hk2
    exact this ▸ hk
  · intro h
    exact ⟨(a, b), ⟨h, rfl⟩, rfl⟩

theorem getEdge_isSome_iff {g : FlightGraph} {a b : String} :
    (getEdge g a b).isSome ↔ (a, b) ∈ g.edges.map (·.1) :=
  lookupA_isSome_iff

theorem nodup_successorsOf {g : FlightGraph} (a : String)
    (h : ((g.edges.map (·.1)).Nodup)) : (successorsOf g a).Nodup := by
  rw [successorsOf_eq]
  refine List.Nodup.map_on ?_ (h.filter _)
  intro x hx y hy hxy
  simp only [List.mem_filter, decide_eq_true_eq] at hx hy
  exact Prod.ext (hx.2.trans hy.2.symm) hxy

theorem simplePathsAux_sound {g : FlightGraph} {t : String} :
    ∀ (fuel : ℕ) (cur : String) (vis : List String) (p : List String),
      cur ∈ vis → p ∈ simplePathsAux g t fuel cur vis →
      p.head? = some cur ∧ p.getLast? = some t ∧
        p.Chain' (fun a b => (getEdge g a b).isSome) ∧ p.Nodup ∧
        ∀ x ∈ p.tail, x ∉ vis := by
  intro fuel
  induction fuel with
  | zero => intro cur vis p _ hp; simp [simplePathsAux] at hp
  | succ fuel ih =>
      intro cur vis p hcur hp
      unfold simplePathsAux at hp
      by_cases hct : cur = t
      · rw [if_pos hct] at hp
        simp only [List.mem_singleton] at hp
        subst hp
        subst hct
        refine ⟨rfl, rfl, List.chain'_singleton _, List.nodup_singleton _, ?_⟩
        intro x hx
        simp at hx
      · rw [if_neg hct] at hp
        rw [List.mem_flatMap] at hp
        obtain ⟨n, hn, hpn⟩ := hp
        by_cases hnv : n ∈ vis
        · rw [if_pos hnv] at hpn; simp at hpn
        · rw [if_neg hnv] at hpn
          rw [List.mem_map] at hpn
          obtain ⟨q, hq, hpq⟩ := hpn
          subst hpq
          obtain ⟨hqh, hql, hqc, hqn, hqt⟩ :=
            ih n (n :: vis) q (List.mem_cons_self n vis) hq
          obtain ⟨q', hq'⟩ : ∃ q', q = n :: q' := by
            cases q with
            | nil => simp at hqh
            | cons x xs =>
                simp only [List.head?_cons, Option.some.injEq] at hqh
                exact ⟨xs, by rw [hqh]⟩
          subst hq'
          have hedge : (getEdge g cur n).isSome := by
            rw [getEdge_isSome_iff]
            exact mem_successorsOf.mp hn
          refine ⟨rfl, ?_, ?_, ?_, ?_⟩
          · rw [List.getLast?_cons_cons]
            exact hql
          · rw [List.chain'_cons]
            exact ⟨hedge, hqc⟩
          · rw [List.nodup_cons]
            refine ⟨?_, hqn⟩
            intro hcontra
            rcases List.mem_cons.mp hcontra with h | h
            · exact hnv (h ▸ hcur)
            · exact (hqt cur h) (List.mem_cons_of_mem n hcur)
          · intro x hx
            rcases List.mem_cons.mp hx with h | h
            · subst h; exact hnv
            · intro hxv
              exact (hqt x h) (List.mem_cons_of_mem n hxv)

theorem simplePathsAux_complete {g : FlightGraph} {t : String} :
    ∀ (fuel : ℕ) (cur : String) (vis : List String) (p : List String),
      p.head? = some cur → p.getLast? = some t →
      p.Chain' (fun a b => (getEdge g a b).isSome) → p.Nodup →
      (∀ x ∈ p.tail, x ∉ vis) → p.length ≤ fuel →
      p ∈ simplePathsAux g t fuel cur vis := by
  intro fuel
  induction fuel with
  | zero =>
      intro cur vis p hh _ _ _ _ hlen
      cases p with
      | nil => simp at hh
      | cons a q => simp at hlen
  | succ fuel ih =>
      intro cur vis p hh hl hc hn ht hlen
      obtain ⟨rest, hrest⟩ : ∃ rest, p = cur :: rest := by
        cases p with
        | nil => simp at hh
        | cons a q =>
            simp only [List.head?_cons, Option.some.injEq] at hh
            exact ⟨q, by rw [hh]⟩
      subst hrest
      unfold simplePathsAux
      by_cases hct : cur = t
      · rw [if_pos hct]
        have hrnil : rest = [] := by
          by_contra hne
          have hlast : (cur :: rest).getLast? = rest.getLast? := by
            cases rest with
            | nil => exact absurd rfl hne
            | cons b q => rw [List.getLast?_cons_cons]
          rw [hlast] at hl
          have : t ∈ rest := by
            obtain ⟨hne2, heq⟩ := List.mem_getLast?_eq_getLast (l := rest) (x := t) hl
            exact heq ▸ List.getLast_mem hne2
          rw [List.nodup_cons] at hn
          exact hn.1 (hct ▸ this)
        subst hrnil
        simp
      · rw [if_neg hct]
        obtain ⟨n, q', hq'⟩ : ∃ n q', rest = n :: q' := by
          cases rest with
          | nil =>
              simp only [List.getLast?_singleton, Option.some.injEq] at hl
              exact absurd hl hct
          | cons b q => exact ⟨b, q, rfl⟩
        subst hq'
        rw [List.mem_flatMap]
        refine ⟨n, ?_, ?_⟩
        · rw [mem_successorsOf]
          rw [List.chain'_cons] at hc
          rw [← getEdge_isSome_iff]
          exact hc.1
        · have hnv : n ∉ vis := ht n (List.mem_cons_self n q')
          rw [if_neg hnv, List.mem_map]
          refine ⟨n :: q', ?_, rfl⟩
          apply ih
          · rfl
          · rw [List.getLast?_cons_cons] at hl; exact hl
          · rw [List.chain'_cons] at hc; exact hc.2
          · rw [List.nodup_cons] at hn; exact hn.2
          · intro x hx
            intro hmem
            rcases List.mem_cons.mp hmem with h | h
            · rw [List.nodup_cons] at hn
              subst h
              exact (List.nodup_cons.mp hn.2).1 hx
            · exact ht x (List.mem_cons_of_mem n hx) h
          · simpa using Nat.le_of_succ_le_succ hlen
theorem simplePathsAux_nodup {g : FlightGraph} {t : String}
    (hkeys : ((g.edges.map (·.1)).Nodup)) :
    ∀ (fuel : ℕ) (cur : String) (vis : List String),
      (simplePathsAux g t fuel cur vis).Nodup := by
  intro fuel
  induction fuel with
  | zero => intro cur vis; simp [simplePathsAux]
  | succ fuel ih =>
      intro cur vis
      unfold simplePathsAux
      by_cases hct : cur = t
      · rw [if_pos hct]; exact List.nodup_singleton _
      · rw [if_neg hct]
        rw [List.nodup_flatMap]
        constructor
        · intro n _
          by_cases hnv : n ∈ vis
          · rw [if_pos hnv]; exact List.nodup_nil
          · rw [if_neg hnv]
            exact (ih n (n :: vis)).map (fun p q h => by
              injection h)
        · have hsucc := nodup_successorsOf (g := g) cur hkeys
          refine hsucc.imp ?_
          intro n₁ n₂ hne
          simp only [Function.onFun]
          by_cases h₁ : n₁ ∈ vis
          · rw [if_pos h₁]; exact List.disjoint_nil_left _
          · by_cases h₂ : n₂ ∈ vis
            · rw [if_neg h₁, if_pos h₂]; exact List.disjoint_nil_right _
            · rw [if_neg h₁, if_neg h₂]
              intro p hp₁ hp₂
              rw [List.mem_map] at hp₁ hp₂
              obtain ⟨q₁, hq₁, hpq₁⟩ := hp₁
              obtain ⟨q₂, hq₂, hpq₂⟩ := hp₂
              have hh₁ := (simplePathsAux_sound fuel n₁ (n₁ :: vis) q₁
                (List.mem_cons_self n₁ vis) hq₁).1
              have hh₂ := (simplePathsAux_sound fuel n₂ (n₂ :: vis) q₂
                (List.mem_cons_self n₂ vis) hq₂).1
              have : q₁ = q₂ := by
                have := hpq₁.trans hpq₂.symm
                injection this
              rw [this, hh₂] at hh₁
              exact hne (Option.some.inj hh₁).symm

theorem path_subset_nodeKeys {g : FlightGraph} (hWF : WF g) :
    ∀ (p : List String) (a : String), a ∈ nodeKeys g →
      (a :: p).Chain' (fun x y => (getEdge g x y).isSome) →
      ∀ x ∈ a :: p, x ∈ nodeKeys g := by
  intro p
  induction p with
  | nil =>
      intro a ha _ x hx
      rw [List.mem_singleton] at hx
      exact hx ▸ ha
  | cons b q ih =>
      intro a ha hc x hx
      rw [List.chain'_cons] at hc
      have hb : b ∈ nodeKeys g := by
        have := getEdge_isSome_iff.mp hc.1
        rw [List.mem_map] at this
        obtain ⟨e, he, hek⟩ := this
        have := (hWF.2.2 e he).2
        rw [hek] at this
        exact this
      rcases List.mem_cons.mp hx with h | h
      · exact h ▸ ha
      · exact ih b hb hc.2 x h

theorem mem_simplePaths_iff {g : FlightGraph} {s t : String}
    (hWF : WF g) (hs : hasNode g s) (p : List String) :
    p ∈ simplePaths g s t ↔ IsSimplePath g s t p := by
  have hsk : s ∈ nodeKeys g := by
    rw [hasNode] at hs
    exact lookupA_isSome_iff.mp hs
  constructor
  · intro hp
    obtain ⟨hh, hl, hc, hn, _⟩ := simplePathsAux_sound g.nodes.length s [s] p
      (List.mem_singleton_self s) hp
    refine ⟨?_, hh, hl, hc, hn⟩
    intro hnil
    rw [hnil] at hh
    simp at hh
  · rintro ⟨hne, hh, hl, hc, hn⟩
    apply simplePathsAux_complete g.nodes.length s [s] p hh hl hc hn
    · intro x hx
      rw [List.mem_singleton]
      intro hxs
      obtain ⟨rest, hrest⟩ : ∃ rest, p = s :: rest := by
        cases p with
        | nil => exact absurd rfl hne
        | cons a q =>
            simp only [List.head?_cons, Option.some.injEq] at hh
            exact ⟨q, by rw [hh]⟩
      subst hrest
      rw [List.nodup_cons] at hn
      simp only [List.tail_cons] at hx
      exact hn.1 (hxs ▸ hx)
    · obtain ⟨rest, hrest⟩ : ∃ rest, p = s :: rest := by
        cases p with
        | nil => exact absurd rfl hne
        | cons a q =>
            simp only [List.head?_cons, Option.some.injEq] at hh
            exact ⟨q, by rw [hh]⟩
      subst hrest
      have hsub : ∀ x ∈ s :: rest, x ∈ nodeKeys g :=
        path_subset_nodeKeys hWF rest s hsk hc
      have hsubperm := List.subperm_of_subset hn hsub
      have := hsubperm.length_le
      rw [nodeKeys, List.length_map] at this
      exact this

theorem nodup_simplePaths {g : FlightGraph} {s t : String}
    (hkeys : ((g.edges.map (·.1)).Nodup)) :
    (simplePaths g s t).Nodup :=
  simplePathsAux_nodup hkeys g.nodes.length s [s]

theorem sortedSimplePaths_perm (g : FlightGraph) (s t : String)
    (w : EdgeData → ℚ) :
    (sortedSimplePaths g s t w).Perm (simplePaths g s t) :=
  List.perm_insertionSort _ _

theorem sortedSimplePaths_sorted (g : FlightGraph) (s t : String)
    (w : EdgeData → ℚ) :
    (sortedSimplePaths g s t w).Pairwise
      (fun p q => pathWeight g w p ≤ pathWeight g w q) := by
  haveI : IsTotal (List String)
      (fun p q => pathWeight g w p ≤ pathWeight g w q) :=
    ⟨fun p q => le_total _ _⟩
  haveI : IsTrans (List String)
      (fun p q => pathWeight g w p ≤ pathWeight g w q) :=
    ⟨fun p q r h₁ h₂ => le_trans h₁ h₂⟩
  exact List.sorted_insertionSort _ _
theorem pathWeight_cons_cons (g : FlightGraph) (w : EdgeData → ℚ)
    (a b : String) (rest : List String) :
    pathWeight g w (a :: b :: rest) =
      (match getEdge g a b with | some e => w e | none => 0) +
        pathWeight g w (b :: rest) := rfl

theorem pathEdges_of_chain {g : FlightGraph} :
    ∀ {p : List String},
      p.Chain' (fun a b => (getEdge g a b).isSome) →
      ∃ legs, pathEdges g p = some legs ∧
        (∀ f : EdgeData → ℚ,
          (legs.map (fun l => f l.2)).sum = pathWeight g f p) := by
  intro p
  induction p with
  | nil => intro _; exact ⟨[], rfl, fun f => by simp [pathWeight]⟩
  | cons a q ih =>
      intro hc
      cases q with
      | nil => exact ⟨[], rfl, fun f => by simp [pathWeight]⟩
      | cons b rest =>
          rw [List.chain'_cons] at hc
          obtain ⟨e, he⟩ := Option.isSome_iff_exists.mp hc.1
          obtain ⟨legs, hlegs, hsum⟩ := ih hc.2
          refine ⟨((a, b), e) :: legs, ?_, ?_⟩
          · unfold pathEdges
            rw [he, hlegs]
            rfl
          · intro f
            simp only [List.map_cons, List.sum_cons]
            rw [hsum f, pathWeight_cons_cons, he]

theorem transfer_foldl (l : List String) (acc : ℚ) :
    l.foldl (fun acc stop => acc + get_transfer_time stop false) acc =
      acc + (l.length : ℚ) * (Config.DEFAULT_TRANSFER_TIME / 60) := by
  induction l generalizing acc with
  | nil => simp
  | cons x xs ih =>
      rw [List.foldl_cons, ih]
      simp only [List.length_cons, get_transfer_time]
      push_cast
      ring

theorem length_intermediates (p : List String) :
    ((p.drop 1).dropLast).length = p.length - 2 := by
  rw [List.length_dropLast, List.length_drop]
  omega

theorem calc_metrics_of_chain {g : FlightGraph} {p : List String}
    (hc : p.Chain' (fun a b => (getEdge g a b).isSome)) :
    _calculate_path_metrics g p = some
      { path := p
        segments := ((pathEdges g p).getD []).map (fun l =>
          (⟨l.1.1, l.1.2, pyRound 2 l.2.distance, pyRound 2 l.2.time_cost,
            pyRound 2 l.2.monetary_cost, l.2.airline⟩ : Segment))
        stops := (p.length : ℤ) - 2
        total_distance := pyRound 2 (pathWeight g (fun e => e.distance) p)
        total_flight_time := pyRound 2 (pathWeight g (fun e => e.time_cost) p)
        total_transfer_time := pyRound 2 (((p.length - 2 : ℕ) : ℚ) *
          (Config.DEFAULT_TRANSFER_TIME / 60))
        total_time := pyRound 2 (pathWeight g (fun e => e.time_cost) p +
          ((p.length - 2 : ℕ) : ℚ) * (Config.DEFAULT_TRANSFER_TIME / 60))
        total_cost := pyRound 2 (pathWeight g (fun e => e.monetary_cost) p) } := by
  obtain ⟨legs, hlegs, hsum⟩ := pathEdges_of_chain hc
  have h1 := hsum (fun e => e.distance)
  have h2 := hsum (fun e => e.time_cost)
  have h3 := hsum (fun e => e.monetary_cost)
  unfold _calculate_path_metrics
  rw [hlegs]
  simp only [Option.map_some, Option.map_some', Option.getD_some,
    transfer_foldl, length_intermediates, h1, h2, h3, zero_add]

theorem filterMap_calc_map_path {g : FlightGraph} :
    ∀ (l : List (List String)),
      (∀ p ∈ l, p.Chain' (fun a b => (getEdge g a b).isSome)) →
      ((l.filterMap (_calculate_path_metrics g)).map (fun m => m.path)) = l := by
  intro l
  induction l with
  | nil => intro _; rfl
  | cons p rest ih =>
      intro h
      have hp := h p (List.mem_cons_self p rest)
      rw [List.filterMap_cons, calc_metrics_of_chain hp]
      simp only [List.map_cons]
      rw [ih (fun q hq => h q (List.mem_cons_of_mem p hq))]
theorem roundHalfEven_intCast (z : ℤ) : roundHalfEven (z : ℚ) = z := by
  unfold roundHalfEven
  rw [Int.floor_intCast]
  norm_num

theorem roundHalfEven_nonneg {x : ℚ} (h : 0 ≤ x) : 0 ≤ roundHalfEven x := by
  unfold roundHalfEven
  dsimp only
  have hf : (0 : ℤ) ≤ ⌊x⌋ := Int.floor_nonneg.mpr h
  split
  · exact hf
  · split
    · omega
    · split <;> omega

theorem roundHalfEven_le_intCast {x : ℚ} {B : ℤ} (h : x ≤ (B : ℚ)) :
    roundHalfEven x ≤ B := by
  have hfl : ⌊x⌋ ≤ B := by
    rw [← Int.floor_intCast (α := ℚ) B]
    exact Int.floor_le_floor h
  unfold roundHalfEven
  dsimp only
  by_cases h1 : x - ⌊x⌋ < 1/2
  · rw [if_pos h1]
    exact hfl
  · push_neg at h1
    have hlt : ⌊x⌋ < B := by
      have hx1 : (⌊x⌋ : ℚ) < x := by linarith
      have hx2 : (⌊x⌋ : ℚ) < (B : ℚ) := lt_of_lt_of_le hx1 h
      exact_mod_cast hx2
    rw [if_neg (not_lt.mpr h1)]
    split
    · omega
    · split <;> omega

theorem roundHalfEven_add_two_mul (x : ℚ) (n : ℤ) :
    roundHalfEven (x + ((2 * n : ℤ) : ℚ)) = roundHalfEven x + 2 * n := by
  unfold roundHalfEven
  dsimp only
  rw [Int.floor_add_int]
  have hfrac : x + ((2 * n : ℤ) : ℚ) - ((⌊x⌋ + 2 * n : ℤ) : ℚ) = x - ⌊x⌋ := by
    push_cast
    ring
  rw [hfrac]
  by_cases h1 : x - ⌊x⌋ < 1/2
  · rw [if_pos h1, if_pos h1]
  · rw [if_neg h1, if_neg h1]
    by_cases h2 : 1/2 < x - ⌊x⌋
    · rw [if_pos h2, if_pos h2]
      ring
    · rw [if_neg h2, if_neg h2]
      by_cases he : 2 ∣ ⌊x⌋
      · have he2 : 2 ∣ ⌊x⌋ + 2 * n := by omega
        rw [if_pos he, if_pos he2]
      · have he2 : ¬ 2 ∣ ⌊x⌋ + 2 * n := by omega
        rw [if_neg he, if_neg he2]
        ring

theorem pyRound_nonneg (d : ℕ) {x : ℚ} (h : 0 ≤ x) : 0 ≤ pyRound d x := by
  unfold pyRound
  apply div_nonneg
  · exact_mod_cast roundHalfEven_nonneg (by positivity)
  · positivity

theorem pyRound_le_intCast (d : ℕ) {x : ℚ} {B : ℤ} (h : x ≤ (B : ℚ)) :
    pyRound d x ≤ (B : ℚ) := by
  unfold pyRound
  rw [div_le_iff₀ (by positivity)]
  have hx : x * 10 ^ d ≤ ((B * 10 ^ d : ℤ) : ℚ) := by
    push_cast
    have hpow : (0 : ℚ) < 10 ^ d := by positivity
    exact mul_le_mul_of_nonneg_right h (le_of_lt hpow)
  have := roundHalfEven_le_intCast hx
  calc (roundHalfEven (x * 10 ^ d) : ℚ) ≤ ((B * 10 ^ d : ℤ) : ℚ) := by
        exact_mod_cast this
    _ = (B : ℚ) * 10 ^ d := by push_cast; ring

theorem pyRound_zero (d : ℕ) : pyRound d 0 = 0 := by
  unfold pyRound
  rw [zero_mul]
  rw [show ((0 : ℚ)) = ((0 : ℤ) : ℚ) by norm_num, roundHalfEven_intCast]
  simp

theorem pyRound2_add_three_halves_mul (x : ℚ) (k : ℕ) :
    pyRound 2 (x + (k : ℚ) * (Config.DEFAULT_TRANSFER_TIME / 60)) =
      pyRound 2 x + (k : ℚ) * (Config.DEFAULT_TRANSFER_TIME / 60) := by
  unfold pyRound
  have harg : (x + (k : ℚ) * (Config.DEFAULT_TRANSFER_TIME / 60)) * 10 ^ 2 =
      x * 10 ^ 2 + ((2 * (75 * (k : ℤ)) : ℤ) : ℚ) := by
    unfold Config.DEFAULT_TRANSFER_TIME
    push_cast
    ring
  rw [harg, roundHalfEven_add_two_mul]
  unfold Config.DEFAULT_TRANSFER_TIME
  push_cast
  ring

theorem pyRound2_nat_mul_three_halves (k : ℕ) :
    pyRound 2 ((k : ℚ) * (Config.DEFAULT_TRANSFER_TIME / 60)) =
      (k : ℚ) * (Config.DEFAULT_TRANSFER_TIME / 60) := by
  have := pyRound2_add_three_halves_mul 0 k
  rw [zero_add, pyRound_zero, zero_add] at this
  exact this
/-- C9: the transfer-time lookup ignores its airport-code argument
entirely: for any two codes and any flag the results agree, the value is
the configured international duration over 60 when the flag is set and
the configured default duration over 60 otherwise, and the call is total
(it never fails on an unknown code). -/
theorem get_transfer_time_ignores_airport :
    ∀ (a b : String) (v : Bool),
      get_transfer_time a v = get_transfer_time b v ∧
      get_transfer_time a true = Config.INTERNATIONAL_TRANSFER_TIME / 60 ∧
      get_transfer_time a false = Config.DEFAULT_TRANSFER_TIME / 60 := by
  intro a b v
  refine ⟨rfl, rfl, rfl⟩

/-- C1: the built network keeps at most one edge per ordered pair (its
edge keys are unique), and when a route row arrives whose ordered pair is
already present (both endpoints known), the new edge replaces the kept
one together with its full attribute set exactly when its monetary cost
is strictly lower, leaving every other pair untouched; otherwise — in
particular on an exact monetary-cost tie — the graph is unchanged and the
first-seen edge survives. -/
theorem build_graph_edge_dedup :
    (∀ (dist : DistFn) (airports : List Airport) (routes : List RouteRec),
      (((build_graph dist airports routes).edges.map (·.1)).Nodup))
    ∧
    (∀ (dist : DistFn) (airports : List Airport) (g : FlightGraph)
        (r : RouteRec) (sa da : Airport) (old : EdgeData),
      airports.find? (fun a => a.iata = r.source_airport) = some sa →
      airports.find? (fun a => a.iata = r.destination_airport) = some da →
      getEdge g r.source_airport r.destination_airport = some old →
      ((dist sa.latitude sa.longitude da.latitude da.longitude *
            Config.BASE_COST_PER_KM < old.monetary_cost →
          getEdge (add_route dist airports g r) r.source_airport
              r.destination_airport = some
            ⟨dist sa.latitude sa.longitude da.latitude da.longitude,
              dist sa.latitude sa.longitude da.latitude da.longitude / 800,
              dist sa.latitude sa.longitude da.latitude da.longitude *
                Config.BASE_COST_PER_KM,
              r.airline⟩ ∧
          ∀ k, k ≠ (r.source_airport, r.destination_airport) →
            lookupA k (add_route dist airports g r).edges =
              lookupA k g.edges) ∧
       (¬ dist sa.latitude sa.longitude da.latitude da.longitude *
            Config.BASE_COST_PER_KM < old.monetary_cost →
          add_route dist airports g r = g))) := by
  refine ⟨fun dist airports routes =>
    build_graph_edge_keys_nodup dist airports routes, ?_⟩
  intro dist airports g r sa da old hsa hda hold
  unfold add_route
  dsimp only
  rw [hsa, hda]
  dsimp only
  rw [getEdge] at hold
  rw [hold]
  dsimp only
  constructor
  · intro hlt
    rw [if_pos hlt]
    constructor
    · rw [getEdge]
      exact lookupA_assocUpdate_self _ (by rw [hold]; rfl)
    · intro k hk
      exact lookupA_assocUpdate_ne _ _ hk
  · intro hge
    rw [if_neg hge]
theorem build_graph_edge_dedup_witness :
    getEdge (add_route distC1 airportsC1 gC1 rC1) "AAA" "BBB" =
      some ⟨100, 1/8, 10, "U1"⟩ := by
  have h := (build_graph_edge_dedup.2 distC1 airportsC1 gC1 rC1
    ⟨"AAA", "", "", "X", 0, 0, 0⟩ ⟨"BBB", "", "", "Y", 1, 0, 0⟩
    ⟨200, 1/4, 20, "U0"⟩ (by rfl) (by rfl) (by rfl))
  have h2 := (h.1 (by norm_num [distC1, Config.BASE_COST_PER_KM])).1
  norm_num [distC1, Config.BASE_COST_PER_KM] at h2
  exact h2

/-- C7: an unrecognized weight-selector string makes both the
shortest-path and the k-shortest-paths operations behave exactly as with
selector "time"; it never by itself causes a failure or an absent
result. -/
theorem weight_selector_fallback (g : FlightGraph) (s t : String)
    (ms : Option ℕ) (k : ℕ) (ct : String)
    (h : ct ≠ "time" ∧ ct ≠ "distance" ∧ ct ≠ "cost") :
    find_shortest_path g s t ct ms = find_shortest_path g s t "time" ms ∧
    find_k_shortest_paths g s t k ct = find_k_shortest_paths g s t k "time" := by
  have hw : weightFn ct = weightFn "time" := by
    unfold weightFn
    rw [if_neg h.1, if_neg h.2.1, if_neg h.2.2, if_pos rfl]
  unfold find_shortest_path find_k_shortest_paths sortedSimplePaths
  rw [hw]
  exact ⟨rfl, rfl⟩

theorem weight_selector_fallback_witness :
    find_shortest_path gC7 "AAA" "BBB" "banana" none =
        find_shortest_path gC7 "AAA" "BBB" "time" none ∧
      find_k_shortest_paths gC7 "AAA" "BBB" 1 "banana" =
        find_k_shortest_paths gC7 "AAA" "BBB" 1 "time" :=
  weight_selector_fallback gC7 "AAA" "BBB" none 1 "banana"
    ⟨by decide, by decide, by decide⟩

/-- C10: querying a route from a known airport to itself never returns
absent, for any weight selector and any stop limit including 0: the
result is the single-node path with empty segments, all totals 0 and
stops equal to −1 — a value that breaks the documented invariant that a
path has at least 2 distinct nodes. -/
theorem self_route_degenerate (g : FlightGraph) (A ct : String)
    (ms : Option ℕ) (h : hasNode g A = true) :
    find_shortest_path g A A ct ms = some
      { path := [A], segments := [], stops := -1, total_distance := 0,
        total_flight_time := 0, total_transfer_time := 0, total_time := 0,
        total_cost := 0 } ∧
    ∀ r ∈ find_shortest_path g A A ct ms, ¬ 2 ≤ r.path.length := by
  have hsp : simplePaths g A A = [[A]] := by
    unfold simplePaths
    obtain ⟨n, hn⟩ : ∃ n, g.nodes.length = n + 1 := by
      have hmem : A ∈ g.nodes.map (·.1) := lookupA_isSome_iff.mp h
      cases hg : g.nodes with
      | nil => rw [hg] at hmem; simp at hmem
      | cons x xs => exact ⟨xs.length, rfl⟩
    rw [hn]
    unfold simplePathsAux
    rw [if_pos rfl]
  have hsorted : sortedSimplePaths g A A (weightFn ct) = [[A]] := by
    unfold sortedSimplePaths
    rw [hsp]
    simp
  have hm : _calculate_path_metrics g [A] = some
      { path := [A], segments := [], stops := -1, total_distance := 0,
        total_flight_time := 0, total_transfer_time := 0, total_time := 0,
        total_cost := 0 } := by
    unfold _calculate_path_metrics pathEdges
    simp only [Option.map_some, Option.map_some']
    simp [pyRound_zero]
  have key : find_shortest_path g A A ct ms = some
      { path := [A], segments := [], stops := -1, total_distance := 0,
        total_flight_time := 0, total_transfer_time := 0, total_time := 0,
        total_cost := 0 } := by
    unfold find_shortest_path
    simp only [h, Bool.and_self, if_true]
    rw [hsorted]
    simp only [List.head?_cons]
    cases ms with
    | none => exact hm
    | some m =>
        dsimp only
        have hlt : ¬ (([A] : List String).length : ℤ) - 2 > (m : ℤ) := by
          simp only [List.length_singleton]
          omega
        rw [if_neg hlt]
        exact hm
  refine ⟨key, ?_⟩
  intro r hr
  rw [key] at hr
  simp only [Option.mem_def, Option.some.injEq] at hr
  subst hr
  simp

theorem self_route_degenerate_witness :
    find_shortest_path gC10 "AAA" "AAA" "time" (some 0) = some
      { path := ["AAA"], segments := [], stops := -1, total_distance := 0,
        total_flight_time := 0, total_transfer_time := 0, total_time := 0,
        total_cost := 0 } :=
  (self_route_degenerate gC10 "AAA" "time" (some 0) (by rfl)).1
theorem head_sorted_is_simple {g : FlightGraph} {s t : String}
    {w : EdgeData → ℚ} {p : List String} (hWF : WF g)
    (hs : hasNode g s = true)
    (hp : (sortedSimplePaths g s t w).head? = some p) :
    IsSimplePath g s t p := by
  have hmem : p ∈ sortedSimplePaths g s t w := List.mem_of_mem_head? hp
  have hmem2 : p ∈ simplePaths g s t :=
    (sortedSimplePaths_perm g s t w).mem_iff.mp hmem
  exact (mem_simplePaths_iff hWF hs p).mp hmem2

unseal Rat.add Rat.mul Rat.sub Rat.inv in
theorem stopFilterNone :
    find_shortest_path gC2 "AAA" "CCC" "time" (some 0) = none := by rfl

unseal Rat.add Rat.mul Rat.sub Rat.inv in
theorem stopFilterSimple :
    IsSimplePath gC2 "AAA" "CCC" ["AAA", "CCC"] := by decide

/-- C2: with a finite stop limit, the engine first computes the
unconstrained weighted shortest path and returns absent exactly when that
path's stop count (length minus 2) exceeds the limit; it never searches
for another path that satisfies the bound — witnessed by a concrete
network whose time-shortest path has one stop while a direct edge (zero
stops) exists, yet the limit-0 query returns absent. -/
theorem stop_limit_post_filter :
    (∀ (g : FlightGraph) (s t ct : String) (m : ℕ), WF g →
      hasNode g s = true → hasNode g t = true →
      find_shortest_path g s t ct (some m) =
        (find_shortest_path g s t ct none).bind
          (fun r => if (m : ℤ) < r.stops then none else some r))
    ∧ (find_shortest_path gC2 "AAA" "CCC" "time" (some 0) = none ∧
        IsSimplePath gC2 "AAA" "CCC" ["AAA", "CCC"] ∧
        (((["AAA", "CCC"] : List String).length : ℤ) - 2 ≤ 0)) := by
  constructor
  · intro g s t ct m hWF hs ht
    unfold find_shortest_path
    simp only [hs, ht, Bool.and_self, if_true]
    cases hh : (sortedSimplePaths g s t (weightFn ct)).head? with
    | none => rfl
    | some p =>
        dsimp only
        have hsimple := head_sorted_is_simple hWF hs hh
        have hcalc := calc_metrics_of_chain (g := g) hsimple.2.2.2.1
        by_cases hgt : (p.length : ℤ) - 2 > (m : ℤ)
        · rw [if_pos hgt]
          simp only [hcalc, Option.some_bind]
          rw [if_pos]
          exact hgt
        · rw [if_neg hgt]
          simp only [hcalc, Option.some_bind]
          rw [if_neg]
          exact hgt
  · exact ⟨stopFilterNone, stopFilterSimple, by decide⟩

unseal Rat.add Rat.mul Rat.sub Rat.inv in
theorem stop_limit_post_filter_witness :
    find_shortest_path gC2 "AAA" "CCC" "time" (some 0) =
      (find_shortest_path gC2 "AAA" "CCC" "time" none).bind
        (fun r => if ((0 : ℕ) : ℤ) < r.stops then none else some r) :=
  stop_limit_post_filter.1 gC2 "AAA" "CCC" "time" 0 (by decide)
    (by rfl) (by rfl)
/-- C6: for a connected node sequence of length at least 2, the metrics
result exists and satisfies: total_flight_time is the (rounded) sum of
the leg time costs, total_transfer_time is the fixed domestic per-stop
transfer duration times the number of intermediate stops, the reported
total_time equals the reported total_flight_time plus the reported
total_transfer_time, stops is length − 2, and the distance and cost
display fields are the 2-digit roundings of full-precision sums. -/
theorem metrics_consistency (g : FlightGraph) (p : List String)
    (hlen : 2 ≤ p.length)
    (hc : p.Chain' (fun a b => (getEdge g a b).isSome)) :
    ∃ m, _calculate_path_metrics g p = some m ∧
      m.total_flight_time =
        pyRound 2 (pathWeight g (fun e => e.time_cost) p) ∧
      m.total_transfer_time =
        ((p.length - 2 : ℕ) : ℚ) * (Config.DEFAULT_TRANSFER_TIME / 60) ∧
      m.total_time = m.total_flight_time + m.total_transfer_time ∧
      m.stops = (p.length : ℤ) - 2 ∧
      m.total_distance = pyRound 2 (pathWeight g (fun e => e.distance) p) ∧
      m.total_cost = pyRound 2 (pathWeight g (fun e => e.monetary_cost) p) := by
  have hcalc := calc_metrics_of_chain (g := g) hc
  refine ⟨_, hcalc, rfl, ?_, ?_, rfl, rfl, rfl⟩
  · exact pyRound2_nat_mul_three_halves (p.length - 2)
  · show pyRound 2 (pathWeight g (fun e => e.time_cost) p +
        ((p.length - 2 : ℕ) : ℚ) * (Config.DEFAULT_TRANSFER_TIME / 60)) = _
    rw [pyRound2_add_three_halves_mul, pyRound2_nat_mul_three_halves]

unseal Rat.add Rat.mul Rat.sub Rat.inv in
theorem metrics_consistency_witness :
    2 ≤ (["AAA", "BBB", "CCC"] : List String).length ∧
    ∃ m, _calculate_path_metrics gC6 ["AAA", "BBB", "CCC"] = some m ∧
      m.total_flight_time = pyRound 2
        (pathWeight gC6 (fun e => e.time_cost) ["AAA", "BBB", "CCC"]) ∧
      m.total_transfer_time =
        (((["AAA", "BBB", "CCC"] : List String).length - 2 : ℕ) : ℚ) *
          (Config.DEFAULT_TRANSFER_TIME / 60) ∧
      m.total_time = m.total_flight_time + m.total_transfer_time ∧
      m.stops = ((["AAA", "BBB", "CCC"] : List String).length : ℤ) - 2 ∧
      m.total_distance = pyRound 2
        (pathWeight gC6 (fun e => e.distance) ["AAA", "BBB", "CCC"]) ∧
      m.total_cost = pyRound 2
        (pathWeight gC6 (fun e => e.monetary_cost) ["AAA", "BBB", "CCC"]) :=
  ⟨by decide, metrics_consistency gC6 ["AAA", "BBB", "CCC"] (by decide)
    ((chainB_iff gC6 _).mp (by decide))⟩
theorem simplePaths_sound {g : FlightGraph} {s t : String}
    {p : List String} (hp : p ∈ simplePaths g s t) :
    p.head? = some s ∧ p.getLast? = some t ∧
      p.Chain' (fun a b => (getEdge g a b).isSome) ∧ p.Nodup := by
  obtain ⟨h1, h2, h3, h4, _⟩ := simplePathsAux_sound g.nodes.length s [s] p
    (List.mem_singleton_self s) hp
  exact ⟨h1, h2, h3, h4⟩

theorem find_shortest_path_none_eq (g : FlightGraph) (s t : String)
    (hs : hasNode g s = true) (ht : hasNode g t = true) :
    find_shortest_path g s t "time" none =
      (sortedSimplePaths g s t (fun e => e.time_cost)).head?.bind
        (_calculate_path_metrics g) := by
  have hw : weightFn "time" = fun e => e.time_cost := by
    unfold weightFn
    rw [if_pos rfl]
  unfold find_shortest_path
  rw [hw]
  simp only [hs, ht, Bool.and_self, if_true]
  cases (sortedSimplePaths g s t (fun e => e.time_cost)).head? with
  | none => rfl
  | some p => rfl

/-- C8: hub-removal analysis with an empty removal list succeeds for any
two known distinct airports and yields an alternative path equal to the
original one; when a path exists all four deltas are reported as 0, and
when none exists the result reports path_exists = false with both paths
absent. -/
theorem empty_removal_identity (g : FlightGraph) (s t : String)
    (hs : hasNode g s = true) (ht : hasNode g t = true) (hst : s ≠ t) :
    ∃ res, analyze_hub_removal g s t [] = some res ∧
      res.alternative_path = res.original_path ∧
      (res.original_path = none →
        res.path_exists = false ∧ res.alternative_path = none) ∧
      (∀ o, res.original_path = some o →
        res.path_exists = true ∧ res.time_increase = some 0 ∧
        res.cost_increase = some 0 ∧ res.distance_increase = some 0 ∧
        res.stops_increase = some 0) := by
  have horig := find_shortest_path_none_eq g s t hs ht
  unfold analyze_hub_removal
  simp only [List.foldl_nil, hs, ht, Bool.and_self, if_true]
  rw [horig]
  cases hX : (sortedSimplePaths g s t (fun e => e.time_cost)).head? with
  | none =>
      refine ⟨_, rfl, ?_, ?_, ?_⟩
      · rfl
      · intro _
        exact ⟨rfl, rfl⟩
      · intro o ho
        simp only [Option.none_bind] at ho
        exact absurd ho (by simp)
  | some p =>
      have hchain := (simplePaths_sound
        ((sortedSimplePaths_perm g s t (fun e => e.time_cost)).mem_iff.mp
          (List.mem_of_mem_head? hX))).2.2.1
      have hcalc := calc_metrics_of_chain (g := g) hchain
      simp only [Option.some_bind, hcalc]
      refine ⟨_, rfl, rfl, ?_, ?_⟩
      · intro hnone
        exact absurd hnone (by simp)
      · intro o ho
        simp only [Option.some.injEq] at ho
        subst ho
        refine ⟨rfl, ?_, ?_, ?_, ?_⟩ <;>
          simp [sub_self, pyRound_zero]

theorem empty_removal_identity_witness :
    ∃ res, analyze_hub_removal gC6 "AAA" "CCC" [] = some res ∧
      res.alternative_path = res.original_path ∧
      (res.original_path = none →
        res.path_exists = false ∧ res.alternative_path = none) ∧
      (∀ o, res.original_path = some o →
        res.path_exists = true ∧ res.time_increase = some 0 ∧
        res.cost_increase = some 0 ∧ res.distance_increase = some 0 ∧
        res.stops_increase = some 0) :=
  empty_removal_identity gC6 "AAA" "CCC" (by rfl) (by rfl) (by decide)
theorem inDegree_as_key_filter (edges : List ((String × String) × EdgeData))
    (a : String) :
    (edges.filter (fun e => e.1.2 = a)).length =
      ((edges.map (·.1)).filter (fun k => k.2 = a)).length := by
  induction edges with
  | nil => rfl
  | cons e rest ih =>
      by_cases h : e.1.2 = a
      · simp [List.filter_cons, h, ih]
      · simp [List.filter_cons, h, ih]

theorem outDegree_as_key_filter (edges : List ((String × String) × EdgeData))
    (a : String) :
    (edges.filter (fun e => e.1.1 = a)).length =
      ((edges.map (·.1)).filter (fun k => k.1 = a)).length := by
  induction edges with
  | nil => rfl
  | cons e rest ih =>
      by_cases h : e.1.1 = a
      · simp [List.filter_cons, h, ih]
      · simp [List.filter_cons, h, ih]

theorem key_mem_nodeKeys {g : FlightGraph} (hWF : WF g)
    {k : String × String} (hk : k ∈ g.edges.map (·.1)) :
    k.1 ∈ nodeKeys g ∧ k.2 ∈ nodeKeys g := by
  rw [List.mem_map] at hk
  obtain ⟨e, he, hek⟩ := hk
  have := hWF.2.2 e he
  rw [hek] at this
  exact this

theorem inDegree_bound {g : FlightGraph} {a : String} (hWF : WF g)
    (hns : getEdge g a a = none) (ha : a ∈ nodeKeys g) :
    inDegree g a ≤ (nodeKeys g).length - 1 := by
  rw [inDegree, inDegree_as_key_filter]
  set S := (g.edges.map (·.1)).filter (fun k => decide (k.2 = a)) with hS
  have hSnodup : S.Nodup := (hWF.2.1).filter _
  have hU : (S.map (·.1)).Nodup := by
    refine List.Nodup.map_on ?_ hSnodup
    intro x hx y hy hxy
    rw [hS, List.mem_filter, decide_eq_true_eq] at hx hy
    exact Prod.ext hxy (hx.2.trans hy.2.symm)
  have hUsub : ∀ u ∈ S.map (·.1), u ∈ (nodeKeys g).erase a := by
    intro u hu
    rw [List.mem_map] at hu
    obtain ⟨k, hk, hku⟩ := hu
    rw [hS, List.mem_filter, decide_eq_true_eq] at hk
    rw [(hWF.1).mem_erase_iff]
    constructor
    · intro hua
      have : (a, a) ∈ g.edges.map (·.1) := by
        have : k = (a, a) := Prod.ext (hku.symm ▸ hua ▸ rfl) hk.2
        exact this ▸ hk.1
      rw [← lookupA_isSome_iff (l := g.edges) (k := (a, a))] at this
      rw [getEdge] at hns
      rw [hns] at this
      simp at this
    · exact hku ▸ (key_mem_nodeKeys hWF hk.1).1
  have hlen : (S.map (·.1)).length ≤ ((nodeKeys g).erase a).length :=
    (List.subperm_of_subset hU hUsub).length_le
  rw [List.length_map] at hlen
  rw [List.length_erase_of_mem ha] at hlen
  exact hlen

theorem outDegree_bound {g : FlightGraph} {a : String} (hWF : WF g)
    (hns : getEdge g a a = none) (ha : a ∈ nodeKeys g) :
    outDegree g a ≤ (nodeKeys g).length - 1 := by
  rw [outDegree, outDegree_as_key_filter]
  set S := (g.edges.map (·.1)).filter (fun k => decide (k.1 = a)) with hS
  have hSnodup : S.Nodup := (hWF.2.1).filter _
  have hU : (S.map (·.2)).Nodup := by
    refine List.Nodup.map_on ?_ hSnodup
    intro x hx y hy hxy
    rw [hS, List.mem_filter, decide_eq_true_eq] at hx hy
    exact Prod.ext (hx.2.trans hy.2.symm) hxy
  have hUsub : ∀ u ∈ S.map (·.2), u ∈ (nodeKeys g).erase a := by
    intro u hu
    rw [List.mem_map] at hu
    obtain ⟨k, hk, hku⟩ := hu
    rw [hS, List.mem_filter, decide_eq_true_eq] at hk
    rw [(hWF.1).mem_erase_iff]
    constructor
    · intro hua
      have : (a, a) ∈ g.edges.map (·.1) := by
        have : k = (a, a) := Prod.ext hk.2 (hku.symm ▸ hua ▸ rfl)
        exact this ▸ hk.1
      rw [← lookupA_isSome_iff (l := g.edges) (k := (a, a))] at this
      rw [getEdge] at hns
      rw [hns] at this
      simp at this
    · exact hku ▸ (key_mem_nodeKeys hWF hk.1).2
  have hlen : (S.map (·.2)).length ≤ ((nodeKeys g).erase a).length :=
    (List.subperm_of_subset hU hUsub).length_le
  rw [List.length_map] at hlen
  rw [List.length_erase_of_mem ha] at hlen
  exact hlen

theorem degree_zero_of_not_mem {g : FlightGraph} {a : String} (hWF : WF g)
    (ha : a ∉ nodeKeys g) : inDegree g a = 0 ∧ outDegree g a = 0 := by
  constructor
  · rw [inDegree, List.length_eq_zero, List.filter_eq_nil_iff]
    intro e he
    simp only [decide_eq_true_eq]
    intro hcon
    exact ha (hcon ▸ (hWF.2.2 e he).2)
  · rw [outDegree, List.length_eq_zero, List.filter_eq_nil_iff]
    intro e he
    simp only [decide_eq_true_eq]
    intro hcon
    exact ha (hcon ▸ (hWF.2.2 e he).1)
/-- C4 (amended): for every well-formed network without self-loop edges,
the reported degree-centrality score of every node lies in [0, 2] (not
[0, 1]: on a directed graph networkx normalises the total degree, which
can reach 2(N−1), by N−1), and for N ≥ 2 the underlying score is
(in-degree + out-degree) / (N − 1). -/
theorem degree_centrality_bounds (g : FlightGraph) (a : String)
    (hWF : WF g) (hns : ∀ x, getEdge g x x = none) :
    0 ≤ reported_degree_centrality g a ∧
    reported_degree_centrality g a ≤ 2 ∧
    (2 ≤ g.nodes.length → degree_centrality g a =
      ((inDegree g a : ℚ) + (outDegree g a : ℚ)) /
        ((g.nodes.length : ℚ) - 1)) := by
  have hn : (nodeKeys g).length = g.nodes.length := by
    rw [nodeKeys, List.length_map]
  have hdc : 0 ≤ degree_centrality g a ∧ degree_centrality g a ≤ 2 := by
    unfold degree_centrality
    by_cases h1 : g.nodes.length ≤ 1
    · rw [if_pos h1]
      norm_num
    · rw [if_neg h1]
      push_neg at h1
      have h2 : 2 ≤ g.nodes.length := h1
      have hden : (1 : ℚ) ≤ (g.nodes.length : ℚ) - 1 := by
        have : (2 : ℚ) ≤ (g.nodes.length : ℚ) := by exact_mod_cast h2
        linarith
      have hdenpos : (0 : ℚ) < (g.nodes.length : ℚ) - 1 := by linarith
      constructor
      · apply div_nonneg _ (le_of_lt hdenpos)
        positivity
      · rw [div_le_iff₀ hdenpos]
        by_cases ha : a ∈ nodeKeys g
        · have hin := inDegree_bound hWF (hns a) ha
          have hout := outDegree_bound hWF (hns a) ha
          have hsum : inDegree g a + outDegree g a ≤
              2 * (g.nodes.length - 1) := by
            rw [hn] at hin hout
            omega
          have hcast : ((inDegree g a + outDegree g a : ℕ) : ℚ) ≤
              ((2 * (g.nodes.length - 1) : ℕ) : ℚ) := by
            exact_mod_cast hsum
          push_cast [Nat.cast_sub (by omega : 1 ≤ g.nodes.length)] at hcast
          push_cast
          linarith
        · obtain ⟨hi, ho⟩ := degree_zero_of_not_mem hWF ha
          rw [hi, ho]
          push_cast
          nlinarith
  refine ⟨pyRound_nonneg 6 hdc.1, ?_, ?_⟩
  · have := pyRound_le_intCast 6 (x := degree_centrality g a) (B := 2)
      (by exact_mod_cast hdc.2)
    exact_mod_cast this
  · intro h2
    unfold degree_centrality
    rw [if_neg (by omega)]
unseal Rat.add Rat.mul Rat.sub Rat.inv in
theorem degree_centrality_above_one :
    reported_degree_centrality gC4 "AAA" = 2 ∧
    ¬ reported_degree_centrality gC4 "AAA" ≤ 1 ∧
    (gC4.edges.map (·.1)).all (fun k => !(k.1 = k.2)) = true := by
  refine ⟨by decide, ?_, by decide⟩
  intro hcon
  rw [show reported_degree_centrality gC4 "AAA" = 2 from by decide] at hcon
  norm_num at hcon

unseal Rat.add Rat.mul Rat.sub Rat.inv in
theorem degree_centrality_bounds_witness :
    0 ≤ reported_degree_centrality gC4b "AAA" ∧
    reported_degree_centrality gC4b "AAA" ≤ 2 ∧
    (2 ≤ gC4b.nodes.length → degree_centrality gC4b "AAA" =
      ((inDegree gC4b "AAA" : ℚ) + (outDegree gC4b "AAA" : ℚ)) /
        ((gC4b.nodes.length : ℚ) - 1)) :=
  degree_centrality_bounds gC4b "AAA" (by decide)
    (fun x => by
      have hx : (gC4b.edges.map (·.1)).all (fun k => !(k.1 = k.2)) = true := by
        decide
      rw [getEdge]
      rw [lookupA_eq_none_iff]
      intro hmem
      rw [List.all_eq_true] at hx
      have := hx (x, x) hmem
      simp at this)
theorem mem_sortedSimplePaths_iff {g : FlightGraph} {s t : String}
    {w : EdgeData → ℚ} (hWF : WF g) (hs : hasNode g s = true)
    (p : List String) :
    p ∈ sortedSimplePaths g s t w ↔ IsSimplePath g s t p := by
  rw [(sortedSimplePaths_perm g s t w).mem_iff]
  exact mem_simplePaths_iff hWF hs p

theorem nodup_sortedSimplePaths {g : FlightGraph} {s t : String}
    {w : EdgeData → ℚ} (hkeys : ((g.edges.map (·.1)).Nodup)) :
    (sortedSimplePaths g s t w).Nodup :=
  (sortedSimplePaths_perm g s t w).nodup_iff.mpr (nodup_simplePaths hkeys)

/-- C5: the k-shortest-paths enumeration returns at most `k` results, in
non-decreasing order of total weight, with no duplicate node sequences;
every returned entry is a simple path whose stop count is within the
configured MAX_STOPS ceiling (skipped paths do not consume slots); and
whenever fewer than `k` results come back, the whole space of
stop-compliant simple paths has been exhausted (each one appears in the
result). -/
theorem k_shortest_paths_spec (g : FlightGraph) (s t ct : String) (k : ℕ)
    (hWF : WF g) (hs : hasNode g s = true) (ht : hasNode g t = true)
    (hk : 1 ≤ k) :
    (find_k_shortest_paths g s t k ct).length ≤ k ∧
    (find_k_shortest_paths g s t k ct).Pairwise (fun x y =>
      pathWeight g (weightFn ct) x.path ≤ pathWeight g (weightFn ct) y.path) ∧
    ((find_k_shortest_paths g s t k ct).map (fun m => m.path)).Nodup ∧
    (∀ m ∈ find_k_shortest_paths g s t k ct,
      IsSimplePath g s t m.path ∧ m.stops ≤ Config.MAX_STOPS) ∧
    ((find_k_shortest_paths g s t k ct).length < k →
      ∀ p, IsSimplePath g s t p →
        (p.length : ℤ) - 2 ≤ Config.MAX_STOPS →
        p ∈ (find_k_shortest_paths g s t k ct).map (fun m => m.path)) := by
  have hunfold : find_k_shortest_paths g s t k ct =
      ((((sortedSimplePaths g s t (weightFn ct)).filter
          (fun p => !((p.length : ℤ) - 2 > Config.MAX_STOPS))).filterMap
        (_calculate_path_metrics g)).take k) := by
    unfold find_k_shortest_paths
    simp only [hs, ht, Bool.and_self, if_true]
  set L0 := sortedSimplePaths g s t (weightFn ct) with hL0
  set filt := L0.filter
    (fun p => !((p.length : ℤ) - 2 > Config.MAX_STOPS)) with hfilt
  set L := filt.filterMap (_calculate_path_metrics g) with hL
  have hchains : ∀ p ∈ filt, p.Chain' (fun a b => (getEdge g a b).isSome) := by
    intro p hp
    have hp0 : p ∈ L0 := List.mem_of_mem_filter hp
    exact ((mem_sortedSimplePaths_iff hWF hs p).mp hp0).2.2.2.1
  have hmap : L.map (fun m => m.path) = filt := filterMap_calc_map_path filt hchains
  have hfilt_sub : filt.Sublist L0 := List.filter_sublist L0
  have htake : (find_k_shortest_paths g s t k ct).Sublist L := by
    rw [hunfold]
    exact List.take_sublist k L
  refine ⟨?_, ?_, ?_, ?_, ?_⟩
  · rw [hunfold]
    exact le_trans (List.length_take_le k L) (le_refl k)
  · have hsorted0 : L0.Pairwise (fun p q =>
        pathWeight g (weightFn ct) p ≤ pathWeight g (weightFn ct) q) :=
      sortedSimplePaths_sorted g s t (weightFn ct)
    have hsorted1 : filt.Pairwise (fun p q =>
        pathWeight g (weightFn ct) p ≤ pathWeight g (weightFn ct) q) :=
      hsorted0.sublist hfilt_sub
    have h3 : (L.map (fun m => m.path)).Pairwise (fun p q =>
        pathWeight g (weightFn ct) p ≤ pathWeight g (weightFn ct) q) := by
      rw [hmap]
      exact hsorted1
    exact (List.pairwise_map.mp h3).sublist htake
  · have hnd0 : L0.Nodup := nodup_sortedSimplePaths hWF.2.1
    have hnd1 : filt.Nodup := hnd0.sublist hfilt_sub
    have hnd2 : (L.map (fun m => m.path)).Nodup := hmap ▸ hnd1
    exact hnd2.sublist (htake.map (fun m => m.path))
  · intro m hm
    have hmL : m ∈ L := htake.subset hm
    have hpath : m.path ∈ filt := by
      rw [← hmap]
      exact List.mem_map_of_mem (fun m => m.path) hmL
    have hp0 : m.path ∈ L0 := List.mem_of_mem_filter hpath
    have hsimple : IsSimplePath g s t m.path :=
      (mem_sortedSimplePaths_iff hWF hs _).mp hp0
    refine ⟨hsimple, ?_⟩
    have hstops : m.stops = (m.path.length : ℤ) - 2 := by
      rw [hL, List.mem_filterMap] at hmL
      obtain ⟨p, hp, hcalc⟩ := hmL
      rw [calc_metrics_of_chain (hchains p hp)] at hcalc
      cases hcalc
      rfl
    rw [hstops]
    have := List.mem_filter.mp hpath
    have hcond := this.2
    simp only [Bool.not_eq_eq_eq_not, Bool.not_true, decide_eq_false_iff_not,
      not_lt, gt_iff_lt] at hcond
    omega
  · intro hlt p hp hstops
    have hlenL : L.length < k := by
      rw [hunfold, List.length_take] at hlt
      omega
    have htake_all : find_k_shortest_paths g s t k ct = L := by
      rw [hunfold]
      exact List.take_of_length_le (by omega)
    rw [htake_all, hmap]
    rw [hfilt, List.mem_filter]
    refine ⟨(mem_sortedSimplePaths_iff hWF hs p).mpr hp, ?_⟩
    simp only [Bool.not_eq_eq_eq_not, Bool.not_true, decide_eq_false_iff_not,
      not_lt, gt_iff_lt]
    omega

unseal Rat.add Rat.mul Rat.sub Rat.inv in
theorem k_shortest_paths_spec_witness :
    (find_k_shortest_paths gC2 "AAA" "CCC" 5 "time").length ≤ 5 ∧
    (find_k_shortest_paths gC2 "AAA" "CCC" 5 "time").Pairwise (fun x y =>
      pathWeight gC2 (weightFn "time") x.path ≤
        pathWeight gC2 (weightFn "time") y.path) ∧
    ((find_k_shortest_paths gC2 "AAA" "CCC" 5 "time").map
      (fun m => m.path)).Nodup ∧
    (∀ m ∈ find_k_shortest_paths gC2 "AAA" "CCC" 5 "time",
      IsSimplePath gC2 "AAA" "CCC" m.path ∧ m.stops ≤ Config.MAX_STOPS) ∧
    ((find_k_shortest_paths gC2 "AAA" "CCC" 5 "time").length < 5 →
      ∀ p, IsSimplePath gC2 "AAA" "CCC" p →
        (p.length : ℤ) - 2 ≤ Config.MAX_STOPS →
        p ∈ (find_k_shortest_paths gC2 "AAA" "CCC" 5 "time").map
          (fun m => m.path)) :=
  k_shortest_paths_spec gC2 "AAA" "CCC" "time" 5 (by decide) (by rfl)
    (by rfl) (by norm_num)
theorem althub_entry_eq (g : FlightGraph) (source target ph h : String) :
    althub_entry g source target (_get_country_by_iata g source)
        (_get_country_by_iata g target) ph h =
      if ViableHub g source target ph h then
        some (mkHubOption g source target h)
      else none := by
  by_cases h1 : h = source ∨ h = target ∨ h = ph
  · rw [if_neg (fun hcon => hcon.1 h1)]
    unfold althub_entry
    rw [if_pos h1]
  · by_cases hv : ViableHub g source target ph h
    · obtain ⟨-, hv2, hv3⟩ := hv
      obtain ⟨e1, he1⟩ := Option.isSome_iff_exists.mp hv2
      obtain ⟨e2, he2⟩ := Option.isSome_iff_exists.mp hv3
      rw [if_pos ⟨h1, by rw [he1]; rfl, by rw [he2]; rfl⟩]
      unfold althub_entry mkHubOption
      rw [if_neg h1, he1, he2]
    · rw [if_neg hv]
      unfold althub_entry
      rw [if_neg h1]
      have hnone : getEdge g source h = none ∨ getEdge g h target = none := by
        by_contra hcon
        push_neg at hcon
        exact hv ⟨h1, Option.ne_none_iff_isSome.mp hcon.1,
          Option.ne_none_iff_isSome.mp hcon.2⟩
      rcases hnone with hn | hn
      · rw [hn]
      · rw [hn]
        cases getEdge g source h <;> rfl

theorem filterMap_if_viable (g : FlightGraph) (source target ph : String) :
    ∀ l : List String,
      l.filterMap (althub_entry g source target
          (_get_country_by_iata g source) (_get_country_by_iata g target)
          ph) =
        (l.filter (fun h => decide (ViableHub g source target ph h))).map
          (mkHubOption g source target) := by
  intro l
  induction l with
  | nil => rfl
  | cons x xs ih =>
      rw [List.filterMap_cons, List.filter_cons, althub_entry_eq]
      by_cases hx : ViableHub g source target ph x
      · rw [if_pos hx, if_pos (by simp [hx]), List.map_cons, ih]
      · rw [if_neg hx, if_neg (by simp [hx]), ih]

theorem find_alternative_hubs_eq (g : FlightGraph)
    (source target ph : String) (k : ℕ) :
    find_alternative_hubs g source target ph k =
      (List.insertionSort (fun x y => x.total_time ≤ y.total_time)
        (((nodeKeys g).filter
            (fun h => decide (ViableHub g source target ph h))).map
          (mkHubOption g source target))).take k := by
  unfold find_alternative_hubs
  dsimp only
  rw [filterMap_if_viable]
theorem mkHubOption_hub (g : FlightGraph) (s t h : String) :
    (mkHubOption g s t h).hub = h := by
  unfold mkHubOption
  cases getEdge g s h with
  | none => cases getEdge g h t <;> rfl
  | some e1 => cases getEdge g h t <;> rfl

theorem insertionSort_hubs_sorted (l : List HubOption) :
    (List.insertionSort (fun x y => x.total_time ≤ y.total_time) l).Pairwise
      (fun x y => x.total_time ≤ y.total_time) := by
  haveI : IsTotal HubOption (fun x y => x.total_time ≤ y.total_time) :=
    ⟨fun x y => le_total _ _⟩
  haveI : IsTrans HubOption (fun x y => x.total_time ≤ y.total_time) :=
    ⟨fun x y z h₁ h₂ => le_trans h₁ h₂⟩
  exact List.sorted_insertionSort _ _

/-- C3 (amended): find_alternative_hubs returns, sorted ascending by
total time and truncated to the first k, exactly the nodes distinct from
source, target and the primary hub that have direct edges source→h and
h→target, each annotated with total time equal to the two leg time costs
plus the transfer time at h — international exactly when all three
country values are nonempty AND (the source country differs from the hub
country or the hub country from the target country), domestic otherwise
(the truthiness guard is the amendment); the call always succeeds. -/
theorem alternative_hubs_spec (g : FlightGraph) (s t ph : String) (k : ℕ)
    (hWF : WF g) (hk : 1 ≤ k) :
    (find_alternative_hubs g s t ph k).Pairwise
      (fun x y => x.total_time ≤ y.total_time) ∧
    (find_alternative_hubs g s t ph k).length =
      min k (((nodeKeys g).filter
        (fun h => decide (ViableHub g s t ph h))).length) ∧
    (∀ o ∈ find_alternative_hubs g s t ph k,
      o.hub ∈ nodeKeys g ∧ ViableHub g s t ph o.hub ∧
      o = mkHubOption g s t o.hub ∧
      ∃ e1 e2, getEdge g s o.hub = some e1 ∧ getEdge g o.hub t = some e2 ∧
        o.is_international_transfer =
          hubIsInternational (_get_country_by_iata g s)
            (_get_country_by_iata g o.hub) (_get_country_by_iata g t) ∧
        o.total_time = pyRound 2 (e1.time_cost + e2.time_cost +
          get_transfer_time o.hub o.is_international_transfer)) ∧
    (∀ h ∈ nodeKeys g, ViableHub g s t ph h →
      ((nodeKeys g).filter
          (fun h => decide (ViableHub g s t ph h))).length ≤ k →
      mkHubOption g s t h ∈ find_alternative_hubs g s t ph k) ∧
    (∀ o ∈ find_alternative_hubs g s t ph k, ∀ h ∈ nodeKeys g,
      ViableHub g s t ph h →
      mkHubOption g s t h ∉ find_alternative_hubs g s t ph k →
      o.total_time ≤ (mkHubOption g s t h).total_time) := by
  have heq := find_alternative_hubs_eq g s t ph k
  set cands := (nodeKeys g).filter
    (fun h => decide (ViableHub g s t ph h)) with hcands
  set M := cands.map (mkHubOption g s t) with hM
  set L := List.insertionSort (fun x y => x.total_time ≤ y.total_time) M
    with hLdef
  have hperm : L.Perm M := List.perm_insertionSort _ _
  have hLsorted : L.Pairwise (fun x y => x.total_time ≤ y.total_time) :=
    insertionSort_hubs_sorted M
  have hr : find_alternative_hubs g s t ph k = L.take k := heq
  have hmemM : ∀ o, o ∈ M ↔ ∃ h ∈ nodeKeys g,
      ViableHub g s t ph h ∧ mkHubOption g s t h = o := by
    intro o
    rw [hM, List.mem_map]
    constructor
    · rintro ⟨h, hh, rfl⟩
      rw [hcands, List.mem_filter, decide_eq_true_eq] at hh
      exact ⟨h, hh.1, hh.2, rfl⟩
    · rintro ⟨h, hh1, hh2, rfl⟩
      refine ⟨h, ?_, rfl⟩
      rw [hcands, List.mem_filter, decide_eq_true_eq]
      exact ⟨hh1, hh2⟩
  refine ⟨?_, ?_, ?_, ?_, ?_⟩
  · rw [hr]
    exact hLsorted.sublist (List.take_sublist k L)
  · rw [hr, List.length_take, hperm.length_eq, hM, List.length_map]
  · intro o ho
    rw [hr] at ho
    have hoL : o ∈ L := (List.take_sublist k L).subset ho
    have hoM : o ∈ M := hperm.mem_iff.mp hoL
    obtain ⟨h, hh1, hh2, hh3⟩ := (hmemM o).mp hoM
    have hhub : o.hub = h := by rw [← hh3, mkHubOption_hub]
    have hv2 := hh2.2.1
    have hv3 := hh2.2.2
    obtain ⟨e1, he1⟩ := Option.isSome_iff_exists.mp hv2
    obtain ⟨e2, he2⟩ := Option.isSome_iff_exists.mp hv3
    refine ⟨by rw [hhub]; exact hh1, by rw [hhub]; exact hh2,
      by rw [hhub]; exact hh3.symm, e1, e2,
      by rw [hhub]; exact he1, by rw [hhub]; exact he2, ?_, ?_⟩
    · rw [hhub, ← hh3]
      unfold mkHubOption
      rw [he1, he2]
    · rw [hhub, ← hh3]
      unfold mkHubOption
      rw [he1, he2]
  · intro h hh1 hh2 hlen
    have hmem : mkHubOption g s t h ∈ M := (hmemM _).mpr ⟨h, hh1, hh2, rfl⟩
    have hmemL : mkHubOption g s t h ∈ L := hperm.mem_iff.mpr hmem
    rw [hr]
    have hLlen : L.length ≤ k := by
      rw [hperm.length_eq, hM, List.length_map]
      exact hlen
    rw [List.take_of_length_le hLlen]
    exact hmemL
  · intro o ho h hh1 hh2 hnot
    rw [hr] at ho hnot
    have hmemL : mkHubOption g s t h ∈ L :=
      hperm.mem_iff.mpr ((hmemM _).mpr ⟨h, hh1, hh2, rfl⟩)
    have hsplit : L = L.take k ++ L.drop k := (List.take_append_drop k L).symm
    have hdrop : mkHubOption g s t h ∈ L.drop k := by
      rw [hsplit] at hmemL
      rcases List.mem_append.mp hmemL with hc | hc
      · exact absurd hc hnot
      · exact hc
    have := hLsorted
    rw [hsplit] at this
    rw [List.pairwise_append] at this
    exact this.2.2 o ho _ hdrop
unseal Rat.add Rat.mul Rat.sub Rat.inv in
theorem alternative_hubs_truthiness_gap :
    _get_country_by_iata gC3 "AAA" = some "" ∧
    _get_country_by_iata gC3 "BBB" = some "XX" ∧
    _get_country_by_iata gC3 "CCC" = some "XX" ∧
    _get_country_by_iata gC3 "AAA" ≠ _get_country_by_iata gC3 "BBB" ∧
    (find_alternative_hubs gC3 "AAA" "CCC" "DDD" 5).map
      (fun o => (o.hub, o.is_international_transfer, o.transfer_time)) =
      [("BBB", false, 3/2)] ∧
    get_transfer_time "BBB" true = 2 := by
  refine ⟨by decide, by decide, by decide, by decide, by decide, ?_⟩
  unfold get_transfer_time Config.INTERNATIONAL_TRANSFER_TIME
  norm_num

unseal Rat.add Rat.mul Rat.sub Rat.inv in
theorem alternative_hubs_spec_witness :
    (find_alternative_hubs gC3 "AAA" "CCC" "DDD" 5).Pairwise
      (fun x y => x.total_time ≤ y.total_time) ∧
    (find_alternative_hubs gC3 "AAA" "CCC" "DDD" 5).length =
      min 5 (((nodeKeys gC3).filter
        (fun h => decide (ViableHub gC3 "AAA" "CCC" "DDD" h))).length) ∧
    (∀ o ∈ find_alternative_hubs gC3 "AAA" "CCC" "DDD" 5,
      o.hub ∈ nodeKeys gC3 ∧ ViableHub gC3 "AAA" "CCC" "DDD" o.hub ∧
      o = mkHubOption gC3 "AAA" "CCC" o.hub ∧
      ∃ e1 e2, getEdge gC3 "AAA" o.hub = some e1 ∧
        getEdge gC3 o.hub "CCC" = some e2 ∧
        o.is_international_transfer =
          hubIsInternational (_get_country_by_iata gC3 "AAA")
            (_get_country_by_iata gC3 o.hub)
            (_get_country_by_iata gC3 "CCC") ∧
        o.total_time = pyRound 2 (e1.time_cost + e2.time_cost +
          get_transfer_time o.hub o.is_international_transfer)) ∧
    (∀ h ∈ nodeKeys gC3, ViableHub gC3 "AAA" "CCC" "DDD" h →
      ((nodeKeys gC3).filter
          (fun h => decide (ViableHub gC3 "AAA" "CCC" "DDD" h))).length ≤ 5 →
      mkHubOption gC3 "AAA" "CCC" h ∈
        find_alternative_hubs gC3 "AAA" "CCC" "DDD" 5) ∧
    (∀ o ∈ find_alternative_hubs gC3 "AAA" "CCC" "DDD" 5,
      ∀ h ∈ nodeKeys gC3, ViableHub gC3 "AAA" "CCC" "DDD" h →
      mkHubOption gC3 "AAA" "CCC" h ∉
        find_alternative_hubs gC3 "AAA" "CCC" "DDD" 5 →
      o.total_time ≤ (mkHubOption gC3 "AAA" "CCC" h).total_time) :=
  alternative_hubs_spec gC3 "AAA" "CCC" "DDD" 5 (by decide) (by norm_num)
